import Mathlib

set_option maxHeartbeats 2000000
set_option maxRecDepth 20000

/-!
Verification development for the toak content pipeline.

The definitions below are a shallow embedding of the TypeScript sources:
* `Toak.TokenCleaner` embeds `src/packages/toak/src/TokenCleaner.ts`
  (the `patterns` transforms, the `secretPatterns` transforms, `clean`,
  `redactSecrets` and `cleanAndRedact`).  Each JavaScript regex
  replacement is translated into an executable character-list
  transformation with the same semantics (global leftmost matching,
  greedy/lazy quantifier behaviour, multiline anchors, lookarounds).
* `Toak.globMatcher` embeds the glob matcher of the repository
  (`makeRe` and `isMatch`).
* `Toak.MarkdownGenerator` holds definitions modelled from the spec for
  the parts of the pipeline whose implementation file is not in `src/`.
-/

namespace Toak

/-- JavaScript whitespace: the set matched by the regex class `\s` and
removed by `String.prototype.trim` (WhiteSpace plus LineTerminator). -/
def isJsWs (c : Char) : Bool :=
  c = ' ' || c = '\t' || c = '\n' || c = '\r' || c = '\x0b' || c = '\x0c' ||
  c = '\u00A0' || c = '\u1680' || ('\u2000' ≤ c && c ≤ '\u200A') ||
  c = '\u2028' || c = '\u2029' || c = '\u202F' || c = '\u205F' ||
  c = '\u3000' || c = '\uFEFF'

/-- JavaScript LineTerminator characters: the characters that `.` does not
match and at which multiline `^`/`$` anchor. -/
def isLineTerm (c : Char) : Bool :=
  c = '\n' || c = '\r' || c = '\u2028' || c = '\u2029'

/-- The regex character class `[\r\n]`. -/
def isCRLF (c : Char) : Bool := c = '\r' || c = '\n'

/-- The regex word-character class `\w`, used by the `\b` boundary. -/
def isWordChar (c : Char) : Bool :=
  ('a' ≤ c && c ≤ 'z') || ('A' ≤ c && c ≤ 'Z') || ('0' ≤ c && c ≤ '9') || c = '_'

/-- The case-insensitive hex-digit class `[a-f0-9]` with flag `i`. -/
def isHexDigit (c : Char) : Bool :=
  ('0' ≤ c && c ≤ '9') || ('a' ≤ c && c ≤ 'f') || ('A' ≤ c && c ≤ 'F')

/-- The regex class `["']`. -/
def isQuote (c : Char) : Bool := c = '"' || c = '\''

/-- Literal-prefix test on character lists. -/
def leadsWith : List Char → List Char → Bool
  | [], _ => true
  | _ :: _, [] => false
  | a :: as, b :: bs => a = b && leadsWith as bs

/-- Case-insensitive literal-prefix test (for regexes with flag `i`). -/
def leadsWithCI : List Char → List Char → Bool
  | [], _ => true
  | _ :: _, [] => false
  | a :: as, b :: bs => a.toLower = b.toLower && leadsWithCI as bs

/-- True when the scan position whose reversed left context is `prev` is at
a line start (string start or right after a LineTerminator): multiline `^`. -/
def atLineStart : List Char → Bool
  | [] => true
  | c :: _ => isLineTerm c

/-- One global regex replacement pass (`String.prototype.replace` with flag
`g`).  `step prev cs` receives the reversed left context `prev` (the
original characters before the scan position, as JavaScript lookbehinds see
them) and the remaining input `cs`; it returns `some (consumed, rep, rest)`
when a match starts here, with `consumed ++ rest = cs`.  On a match the
replacement is emitted and scanning continues after the match; otherwise one
character is copied.  `fuel` bounds the recursion; every real step consumes
at least one character, so `cs.length + 1` fuel always suffices. -/
def rscan (step : List Char → List Char → Option (List Char × List Char × List Char)) :
    Nat → List Char → List Char → List Char
  | 0, _, cs => cs
  | _ + 1, _, [] => []
  | f + 1, prev, c :: cs =>
    match step prev (c :: cs) with
    | some (con, rep, rest) => rep ++ rscan step f (con.reverse ++ prev) rest
    | none => c :: rscan step f (c :: prev) cs

/-- Run one replacement pass over a whole string. -/
def runScan (step : List Char → List Char → Option (List Char × List Char × List Char))
    (cs : List Char) : List Char :=
  rscan step (cs.length + 1) [] cs

/-! ### The Cleaner's seven built-in transforms (TokenCleaner.patterns) -/

/-- Pattern 1, single-line comments: `/\/\/.*$/gm` replaced by the empty
string.  `.` stops at a LineTerminator, so the match runs from the leftmost
`//` of a line to that line's end. -/
def stepLineComment (_prev cs : List Char) :
    Option (List Char × List Char × List Char) :=
  match cs with
  | '/' :: '/' :: rest =>
    let body := rest.takeWhile (fun c => !isLineTerm c)
    some ('/' :: '/' :: body, [], rest.dropWhile (fun c => !isLineTerm c))
  | _ => none

/-- Helper for pattern 2: the non-greedy search for the closing `*/`.
Returns the characters strictly before the first `*/` and the rest after it. -/
def findCloseCM : List Char → Option (List Char × List Char)
  | [] => none
  | '*' :: '/' :: r => some ([], r)
  | c :: r => (findCloseCM r).map (fun p => (c :: p.1, p.2))

/-- Pattern 2, multi-line comments: `/\/\*[\s\S]*?\*\//g` replaced by the
empty string (non-greedy, across lines; an unclosed `/*` does not match). -/
def stepBlockComment (_prev cs : List Char) :
    Option (List Char × List Char × List Char) :=
  match cs with
  | '/' :: '*' :: rest =>
    (findCloseCM rest).map
      (fun p => ('/' :: '*' :: (p.1 ++ ['*', '/']), [], p.2))
  | _ => none

/-- Helper for pattern 3: scan for the first `)` on the current line
(the lazy `.*?\)`; `.` cannot cross a LineTerminator). -/
def findParenEnd : List Char → Option (List Char × List Char)
  | [] => none
  | ')' :: r => some ([')'], r)
  | c :: r =>
    if isLineTerm c then none
    else (findParenEnd r).map (fun p => (c :: p.1, p.2))

/-- The method-name alternation of pattern 3: `(log|error|warn|info)`. -/
def consoleKind : List Char → Option (List Char) :=
  fun cs =>
    if leadsWith ['l', 'o', 'g'] cs then some ['l', 'o', 'g']
    else if leadsWith ['e', 'r', 'r', 'o', 'r'] cs then some ['e', 'r', 'r', 'o', 'r']
    else if leadsWith ['w', 'a', 'r', 'n'] cs then some ['w', 'a', 'r', 'n']
    else if leadsWith ['i', 'n', 'f', 'o'] cs then some ['i', 'n', 'f', 'o']
    else none

/-- Pattern 3, console statements:
`/console\.(log|error|warn|info)\(.*?\);?/g` replaced by the empty string. -/
def stepConsole (_prev cs : List Char) :
    Option (List Char × List Char × List Char) :=
  if leadsWith ('c' :: 'o' :: 'n' :: 's' :: 'o' :: 'l' :: 'e' :: '.' :: []) cs then
    let r0 := cs.drop 8
    match consoleKind r0 with
    | none => none
    | some k =>
      match r0.drop k.length with
      | '(' :: r1 =>
        (findParenEnd r1).map (fun p =>
          let (semi, r2) :=
            match p.2 with
            | ';' :: r2 => ([';'], r2)
            | other => ([], other)
          (('c' :: 'o' :: 'n' :: 's' :: 'o' :: 'l' :: 'e' :: '.' :: []) ++ k ++
            '(' :: p.1 ++ semi, [], r2))
      | _ => none
  else none

/-- Pattern 4, empty lines: `/^\s*[\r\n]/gm` replaced by the empty string.
At a line start the match is the longest whitespace run whose final
character is `\r` or `\n` (greedy `\s*` with one backtracked `[\r\n]`). -/
def stepEmptyLines (prev cs : List Char) :
    Option (List Char × List Char × List Char) :=
  if !atLineStart prev then none
  else
    let run := cs.takeWhile isJsWs
    let after := cs.dropWhile isJsWs
    let t := run.reverse.takeWhile (fun c => !isCRLF c)
    if t.length = run.length then none
    else
      let k := run.length - t.length
      some (run.take k, [], run.drop k ++ after)

/-- Pattern 5, trailing spaces: `/ +$/gm` replaced by the empty string: a
run of space characters directly before a line end. -/
def stepTrailingSpaces (_prev cs : List Char) :
    Option (List Char × List Char × List Char) :=
  match cs with
  | ' ' :: _ =>
    let run := cs.takeWhile (fun c => c = ' ')
    let after := cs.dropWhile (fun c => c = ' ')
    match after with
    | [] => some (run, [], [])
    | c :: _ => if isLineTerm c then some (run, [], after) else none
  | _ => none

/-- Helper for pattern 6: the final `\s*$` of the import regex.  Consumes
the greedy-longest whitespace prefix that leaves the position at a line end
(end of string, or directly before a LineTerminator). -/
def wsDollar (ys : List Char) : Option (List Char × List Char) :=
  let run := ys.takeWhile isJsWs
  let after := ys.dropWhile isJsWs
  match after with
  | [] => some (run, [])
  | _ =>
    let t := run.reverse.takeWhile (fun c => !isLineTerm c)
    if t.length = run.length then none
    else
      let k := run.length - t.length - 1
      some (run.take k, run.drop k ++ after)

/-- Helper for pattern 6: `;?\s*$` (greedy optional semicolon). -/
def semiWsDollar (xs : List Char) : Option (List Char × List Char) :=
  match xs with
  | ';' :: r => (wsDollar r).map (fun p => (';' :: p.1, p.2))
  | _ => wsDollar xs

/-- Helper for pattern 6: the lazy `.*?;?\s*$`, expanding `.*?` from the
empty string until `;?\s*$` matches (it cannot cross a LineTerminator). -/
def lazyImpEnd : List Char → Option (List Char × List Char)
  | [] => some ([], [])
  | c :: r =>
    match semiWsDollar (c :: r) with
    | some p => some p
    | none =>
      if isLineTerm c then none
      else (lazyImpEnd r).map (fun p => (c :: p.1, p.2))

/-- Pattern 6, import statements: `/^\s*import\s+.*?;?\s*$/gm` replaced by
the empty string. -/
def stepImport (prev cs : List Char) :
    Option (List Char × List Char × List Char) :=
  if !atLineStart prev then none
  else
    let w := cs.takeWhile isJsWs
    let r0 := cs.dropWhile isJsWs
    if leadsWith ('i' :: 'm' :: 'p' :: 'o' :: 'r' :: 't' :: []) r0 then
      let r1 := r0.drop 6
      let w2 := r1.takeWhile isJsWs
      if w2.isEmpty then none
      else
        let r2 := r1.dropWhile isJsWs
        (lazyImpEnd r2).map (fun p =>
          (w ++ ('i' :: 'm' :: 'p' :: 'o' :: 'r' :: 't' :: []) ++ w2 ++ p.1, [], p.2))
    else none

/-- Pattern 7, multiple newlines: `/^\s*\n+/gm` replaced by `"\n"`.  At a
line start the greedy `\s*` ends at the last `\n` of the whitespace run and
`\n+` takes that `\n`. -/
def stepCollapseNl (prev cs : List Char) :
    Option (List Char × List Char × List Char) :=
  if !atLineStart prev then none
  else
    let run := cs.takeWhile isJsWs
    let after := cs.dropWhile isJsWs
    let t := run.reverse.takeWhile (fun c => c ≠ '\n')
    if t.length = run.length then none
    else
      let k := run.length - t.length
      some (run.take k, ['\n'], run.drop k ++ after)

/-! ### The Redactor's nine built-in patterns (TokenCleaner.secretPatterns) -/

/-- ASCII alphanumeric characters. -/
def isAsciiAlphaNum (c : Char) : Bool :=
  ('a' ≤ c && c ≤ 'z') || ('A' ≤ c && c ≤ 'Z') || ('0' ≤ c && c ≤ '9')

/-- The sentinel `[REDACTED]`. -/
def redactedTok : List Char := '[' :: 'R' :: 'E' :: 'D' :: 'A' :: 'C' :: 'T' :: 'E' :: 'D' :: ']' :: []

/-- The three concrete spellings of a key family `a[_-]?b`, in the order the
greedy optional separator tries them. -/
def fam (a b : String) : List (List Char) :=
  [a.data ++ '_' :: b.data, a.data ++ '-' :: b.data, a.data ++ b.data]

/-- The sensitive-key alternation of secret patterns 1 and 3, flattened in
source order:
`api[_-]?key|stripe[_-]?key|api[_-]?secret|access[_-]?token|auth[_-]?token|client[_-]?secret|password|secret|secret[_-]?key|private[_-]?key|jwt[_-]?secret`. -/
def assignKeys : List (List Char) :=
  fam "api" "key" ++ fam "stripe" "key" ++ fam "api" "secret" ++
  fam "access" "token" ++ fam "auth" "token" ++ fam "client" "secret" ++
  ["password".data, "secret".data] ++
  fam "secret" "key" ++ fam "private" "key" ++ fam "jwt" "secret"

/-- The sensitive-key alternation of secret pattern 9 (same list without
`stripe[_-]?key`). -/
def yamlKeys : List (List Char) :=
  fam "api" "key" ++ fam "api" "secret" ++
  fam "access" "token" ++ fam "auth" "token" ++ fam "client" "secret" ++
  ["password".data, "secret".data] ++
  fam "secret" "key" ++ fam "private" "key" ++ fam "jwt" "secret"

/-- The uppercase env-style key alternation of secret pattern 4, flattened
in source order (case-sensitive; the `AWS_…`, `GOOGLE_…`, `AZURE_…` and URL
keys are fixed literals). -/
def envKeys : List (List Char) :=
  fam "API" "KEY" ++ fam "API" "SECRET" ++ fam "ACCESS" "TOKEN" ++
  fam "AUTH" "TOKEN" ++ fam "CLIENT" "SECRET" ++ fam "DB" "PASSWORD" ++
  fam "DATABASE" "PASSWORD" ++
  ["AWS_ACCESS_KEY_ID".data, "AWS_SECRET_ACCESS_KEY".data, "GOOGLE_API_KEY".data,
   "AZURE_CLIENT_SECRET".data, "DATABASE_URL".data, "MONGO_URI".data, "MYSQL_URL".data] ++
  fam "JWT" "SECRET" ++ fam "SECRET" "KEY" ++ fam "PRIVATE" "KEY"

/-- Regex alternation with continuation: try each alternative in order as a
literal at the head of `cs`; on a hit run the continuation `k` on the match
length, falling through to later alternatives when `k` fails (exactly the
backtracking a JavaScript alternation performs). -/
def tryKeyAlts (ci : Bool) (cs : List Char)
    (k : Nat → Option (List Char × List Char × List Char)) :
    List (List Char) → Option (List Char × List Char × List Char)
  | [] => none
  | a :: rest =>
    if (if ci then leadsWithCI a cs else leadsWith a cs) then
      match k a.length with
      | some r => some r
      | none => tryKeyAlts ci cs k rest
    else tryKeyAlts ci cs k rest

/-- Lookbehind of secret pattern 1 (read backwards from the match position):
`(?<=(["'])(key alternation)["']\s*:\s*["'])`, case-insensitive. -/
def lbJson (prev : List Char) : Bool :=
  match prev with
  | q3 :: r =>
    if isQuote q3 then
      match r.dropWhile isJsWs with
      | ':' :: r2 =>
        match r2.dropWhile isJsWs with
        | q2 :: r4 =>
          isQuote q2 && assignKeys.any (fun kk =>
            leadsWithCI kk.reverse r4 &&
            (match r4.drop kk.length with
             | q1 :: _ => isQuote q1
             | [] => false))
        | [] => false
      | _ => false
    else false
  | [] => false

/-- Secret pattern 1, JSON/object style:
`/(?<=(["'])(key)["']\s*:\s*["'])([^"']{3,})(?=["'])/gi` → `[REDACTED]`.
The greedy value run is the maximal quote-free run; the lookahead then
requires the next character to be a quote. -/
def stepJson (prev cs : List Char) :
    Option (List Char × List Char × List Char) :=
  if lbJson prev then
    let v := cs.takeWhile (fun c => !isQuote c)
    let r := cs.dropWhile (fun c => !isQuote c)
    if 3 ≤ v.length then
      match r with
      | c :: _ => if isQuote c then some (v, redactedTok, r) else none
      | [] => none
    else none
  else none

/-- The JWT header/payload class `[A-Za-z0-9-_=]`. -/
def jwtCls1 (c : Char) : Bool := isAsciiAlphaNum c || c = '-' || c = '_' || c = '='

/-- The JWT signature class `[A-Za-z0-9-_.+\/=]`. -/
def jwtCls3 (c : Char) : Bool := jwtCls1 c || c = '.' || c = '+' || c = '/'

/-- Secret pattern 2, JWT inside quotes:
`/(?<=['"])(eyJ[A-Za-z0-9-_=]+\.[A-Za-z0-9-_=]+\.[A-Za-z0-9-_.+\/=]*)(?=['"])/g`
→ `[REDACTED_JWT]`. -/
def stepJwt (prev cs : List Char) :
    Option (List Char × List Char × List Char) :=
  match prev with
  | q :: _ =>
    if isQuote q && leadsWith ('e' :: 'y' :: 'J' :: []) cs then
      let r0 := cs.drop 3
      let p1 := r0.takeWhile jwtCls1
      if p1.isEmpty then none
      else
        match r0.dropWhile jwtCls1 with
        | '.' :: r1 =>
          let p2 := r1.takeWhile jwtCls1
          if p2.isEmpty then none
          else
            match r1.dropWhile jwtCls1 with
            | '.' :: r2 =>
              let p3 := r2.takeWhile jwtCls3
              let r3 := r2.dropWhile jwtCls3
              match r3 with
              | c :: _ =>
                if isQuote c then
                  some (('e' :: 'y' :: 'J' :: []) ++ p1 ++ '.' :: p2 ++ '.' :: p3,
                    "[REDACTED_JWT]".data, r3)
                else none
              | [] => none
            | _ => none
        | _ => none
    else none
  | [] => none

/-- Secret pattern 3, quoted assignment:
`/(key)\s*=\s*(["'])([^"']{3,})\2/gi` → `$1 = $2[REDACTED]$2`. -/
def stepAssign (_prev cs : List Char) :
    Option (List Char × List Char × List Char) :=
  tryKeyAlts true cs (fun klen =>
    let key := cs.take klen
    let r0 := cs.drop klen
    let ws1 := r0.takeWhile isJsWs
    match r0.dropWhile isJsWs with
    | '=' :: r1 =>
      let ws2 := r1.takeWhile isJsWs
      match r1.dropWhile isJsWs with
      | q :: r2 =>
        if isQuote q then
          let v := r2.takeWhile (fun c => !isQuote c)
          if 3 ≤ v.length then
            match r2.dropWhile (fun c => !isQuote c) with
            | q2 :: r3 =>
              if q2 = q then
                some (key ++ ws1 ++ '=' :: ws2 ++ q :: v ++ [q],
                  key ++ (' ' :: '=' :: ' ' :: []) ++ q :: redactedTok ++ [q], r3)
              else none
            | [] => none
          else none
        else none
      | [] => none
    | _ => none) assignKeys

/-- The shared value alternation of secret patterns 4 and 9:
`(?:\"[^\"]{3,}\"|'[^']{3,}'|[^\s#\n]{3,})`, tried in that order. -/
def parseEnvValue (cs : List Char) : Option (List Char × List Char) :=
  (match cs with
   | '"' :: r =>
     let v := r.takeWhile (fun c => c ≠ '"')
     if 3 ≤ v.length then
       match r.dropWhile (fun c => c ≠ '"') with
       | '"' :: r2 => some ('"' :: v ++ ['"'], r2)
       | _ => none
     else none
   | _ => none) <|>
  (match cs with
   | '\'' :: r =>
     let v := r.takeWhile (fun c => c ≠ '\'')
     if 3 ≤ v.length then
       match r.dropWhile (fun c => c ≠ '\'') with
       | '\'' :: r2 => some ('\'' :: v ++ ['\''], r2)
       | _ => none
     else none
   | _ => none) <|>
  (let v := cs.takeWhile (fun c => !isJsWs c && c ≠ '#')
   if 3 ≤ v.length then some (v, cs.drop v.length) else none)

/-- Secret pattern 4, env style:
`/(^\s*(?:export\s+)?)(KEY alternation)\s*=\s*(value)/gm` →
`$1$2=[REDACTED]` (quotes and spaces around `=` are dropped). -/
def stepEnv (prev cs : List Char) :
    Option (List Char × List Char × List Char) :=
  if !atLineStart prev then none
  else
    let w := cs.takeWhile isJsWs
    let r0 := cs.dropWhile isJsWs
    let (ex, r1) :=
      if leadsWith ('e' :: 'x' :: 'p' :: 'o' :: 'r' :: 't' :: []) r0 then
        let w2 := (r0.drop 6).takeWhile isJsWs
        if w2.isEmpty then (([] : List Char), r0)
        else (('e' :: 'x' :: 'p' :: 'o' :: 'r' :: 't' :: []) ++ w2, (r0.drop 6).dropWhile isJsWs)
      else ([], r0)
    tryKeyAlts false r1 (fun klen =>
      let key := r1.take klen
      let r2 := r1.drop klen
      let ws1 := r2.takeWhile isJsWs
      match r2.dropWhile isJsWs with
      | '=' :: r3 =>
        let ws2 := r3.takeWhile isJsWs
        (parseEnvValue (r3.dropWhile isJsWs)).map (fun p =>
          (w ++ ex ++ key ++ ws1 ++ '=' :: ws2 ++ p.1,
           w ++ ex ++ key ++ '=' :: redactedTok, p.2))
      | _ => none) envKeys

/-- The bearer-token class `[a-zA-Z0-9\-._~+\/]`. -/
def tokenCls (c : Char) : Bool :=
  isAsciiAlphaNum c || c = '-' || c = '.' || c = '_' || c = '~' || c = '+' || c = '/'

/-- Lookbehind `(?<=bearer\s+)` (case-insensitive), read backwards. -/
def lbBearer (prev : List Char) : Bool :=
  let ws := prev.takeWhile isJsWs
  !ws.isEmpty && leadsWithCI ('r' :: 'e' :: 'r' :: 'a' :: 'e' :: 'b' :: []) (prev.dropWhile isJsWs)

/-- Secret pattern 5, bearer tokens:
`/(?<=bearer\s+)[a-zA-Z0-9\-._~+\/]+=*/gi` → `[REDACTED]`. -/
def stepBearer (prev cs : List Char) :
    Option (List Char × List Char × List Char) :=
  if lbBearer prev then
    let t := cs.takeWhile tokenCls
    if t.isEmpty then none
    else
      let r := cs.drop t.length
      let eqs := r.takeWhile (fun c => c = '=')
      some (t ++ eqs, redactedTok, r.drop eqs.length)
  else none

/-- Lookbehind `(?<=Authorization:\s*Bearer\s+)` (case-insensitive), read
backwards. -/
def lbAuthBearer (prev : List Char) : Bool :=
  let ws := prev.takeWhile isJsWs
  if ws.isEmpty then false
  else
    let r1 := prev.dropWhile isJsWs
    if leadsWithCI ('r' :: 'e' :: 'r' :: 'a' :: 'e' :: 'b' :: []) r1 then
      match (r1.drop 6).dropWhile isJsWs with
      | ':' :: r2 => leadsWithCI ("Authorization".data.reverse) r2
      | _ => false
    else false

/-- Secret pattern 6, Authorization headers:
`/(?<=Authorization:\s*Bearer\s+)[a-zA-Z0-9\-._~+\/]+=*/gi` → `[REDACTED]`. -/
def stepAuthBearer (prev cs : List Char) :
    Option (List Char × List Char × List Char) :=
  if lbAuthBearer prev then
    let t := cs.takeWhile tokenCls
    if t.isEmpty then none
    else
      let r := cs.drop t.length
      let eqs := r.takeWhile (fun c => c = '=')
      some (t ++ eqs, redactedTok, r.drop eqs.length)
  else none

/-- Take exactly `n` characters satisfying `p`, or fail. -/
def takeCount : Nat → (Char → Bool) → List Char → Option (List Char × List Char)
  | 0, _, cs => some ([], cs)
  | _ + 1, _, [] => none
  | n + 1, p, c :: cs =>
    if p c then (takeCount n p cs).map (fun q => (c :: q.1, q.2)) else none

/-- A `\b` boundary directly after a word-character run: end of input or a
non-word character. -/
def wordBoundAfter : List Char → Bool
  | [] => true
  | c :: _ => !isWordChar c

/-- Secret pattern 7, hex hashes: `/\b([a-f0-9]{40}|[a-f0-9]{64})\b/gi` →
`[REDACTED_HASH]`. -/
def stepHex (prev cs : List Char) :
    Option (List Char × List Char × List Char) :=
  if (match prev with | [] => true | c :: _ => !isWordChar c) then
    match takeCount 40 isHexDigit cs with
    | some (t, r) =>
      if wordBoundAfter r then some (t, "[REDACTED_HASH]".data, r)
      else
        match takeCount 64 isHexDigit cs with
        | some (t64, r64) =>
          if wordBoundAfter r64 then some (t64, "[REDACTED_HASH]".data, r64) else none
        | none => none
    | none => none
  else none

/-- The base64 class `[A-Za-z0-9+\/]`. -/
def b64Cls (c : Char) : Bool := isAsciiAlphaNum c || c = '+' || c = '/'

/-- Secret pattern 8, long base64 literals in quotes:
`/(['"])([A-Za-z0-9+\/]{40,}={0,2})\1/g` → `$1[REDACTED_BASE64]$1`. -/
def stepB64 (_prev cs : List Char) :
    Option (List Char × List Char × List Char) :=
  match cs with
  | q :: r =>
    if isQuote q then
      let run := r.takeWhile b64Cls
      if 40 ≤ run.length then
        let r2 := r.drop run.length
        let eqs := r2.takeWhile (fun c => c = '=')
        if eqs.length ≤ 2 then
          match r2.drop eqs.length with
          | c :: r3 =>
            if c = q then
              some (q :: run ++ eqs ++ [q], q :: "[REDACTED_BASE64]".data ++ [q], r3)
            else none
          | [] => none
        else none
      else none
    else none
  | [] => none

/-- Lookbehind of secret pattern 9: `(?<=\b(key alternation)\s*:\s*)`
(case-sensitive, lowercase keys), read backwards; the `\b` requires a
non-word character (or the string start) before the key. -/
def lbYaml (prev : List Char) : Bool :=
  match prev.dropWhile isJsWs with
  | ':' :: r2 =>
    let r3 := r2.dropWhile isJsWs
    yamlKeys.any (fun kk =>
      leadsWith kk.reverse r3 &&
      (match r3.drop kk.length with
       | [] => true
       | c :: _ => !isWordChar c))
  | _ => false

/-- Secret pattern 9, YAML/TOML style:
`/(?<=\b(key)\s*:\s*)(?:\"[^\"]{3,}\"|'[^']{3,}'|[^\s#\n]{3,})/gm` →
`"[REDACTED]"`. -/
def stepYaml (prev cs : List Char) :
    Option (List Char × List Char × List Char) :=
  if lbYaml prev then
    (parseEnvValue cs).map (fun p => (p.1, '"' :: redactedTok ++ ['"'], p.2))
  else none

/-! ### Sentinel detection and the post-pass line filter -/

/-- True when `cs` begins with a match of `\[REDACTED(?:_[A-Z]+)?\]`. -/
def sentinelAt (cs : List Char) : Bool :=
  if leadsWith ('[' :: 'R' :: 'E' :: 'D' :: 'A' :: 'C' :: 'T' :: 'E' :: 'D' :: []) cs then
    match cs.drop 9 with
    | ']' :: _ => true
    | '_' :: r =>
      let u := r.takeWhile (fun c => 'A' ≤ c && c ≤ 'Z')
      if u.isEmpty then false
      else
        match r.drop u.length with
        | ']' :: _ => true
        | _ => false
    | _ => false
  else false

/-- True when some position of `cs` starts a sentinel token (an unanchored
search for `\[REDACTED(?:_[A-Z]+)?\]`). -/
def containsSentinel : List Char → Bool
  | [] => false
  | c :: r => sentinelAt (c :: r) || containsSentinel r

/-- The post-pass line filter of `cleanAndRedact`:
`/^.*\[REDACTED(?:_[A-Z]+)?\].*$/gm` replaced by the empty string — every
line that contains a sentinel token anywhere is emptied (its terminator
stays). -/
def dropRedactedLinesL : Nat → List Char → List Char
  | 0, cs => cs
  | f + 1, cs =>
    let line := cs.takeWhile (fun c => !isLineTerm c)
    let rest := cs.dropWhile (fun c => !isLineTerm c)
    let keep := if containsSentinel line then [] else line
    match rest with
    | [] => keep
    | t :: rs => keep ++ t :: dropRedactedLinesL f rs

/-- `String.prototype.trim`: drop JavaScript whitespace at both ends. -/
def jsTrimL (cs : List Char) : List Char :=
  ((cs.dropWhile isJsWs).reverse.dropWhile isJsWs).reverse

/-! ### TokenCleaner's public methods -/

namespace TokenCleaner

/-- `TokenCleaner.clean` with the default (built-in) patterns: the seven
transforms applied in order by the `reduce` over `this.patterns`. -/
def cleanL (cs : List Char) : List Char :=
  runScan stepCollapseNl (runScan stepImport (runScan stepTrailingSpaces
    (runScan stepEmptyLines (runScan stepConsole (runScan stepBlockComment
      (runScan stepLineComment cs))))))

/-- `TokenCleaner.clean` on strings. -/
def clean (s : String) : String := ⟨cleanL s.data⟩

/-- `TokenCleaner.redactSecrets` with the default patterns: the nine secret
transforms applied in order by the `reduce` over `this.secretPatterns`. -/
def redactSecretsL (cs : List Char) : List Char :=
  runScan stepYaml (runScan stepB64 (runScan stepHex (runScan stepAuthBearer
    (runScan stepBearer (runScan stepEnv (runScan stepAssign
      (runScan stepJwt (runScan stepJson cs))))))))

/-- `TokenCleaner.redactSecrets` on strings. -/
def redactSecrets (s : String) : String := ⟨redactSecretsL s.data⟩

/-- `TokenCleaner.cleanAndRedact`: redact secrets, drop lines containing
redacted content, clean, then trim. -/
def cleanAndRedactL (cs : List Char) : List Char :=
  let redacted := redactSecretsL cs
  let withoutRedactedLines := dropRedactedLinesL (redacted.length + 1) redacted
  jsTrimL (cleanL withoutRedactedLines)

/-- `TokenCleaner.cleanAndRedact` on strings. -/
def cleanAndRedact (s : String) : String := ⟨cleanAndRedactL s.data⟩

end TokenCleaner

/-! ### The glob matcher (globMatcher.ts: makeRe and isMatch) -/

namespace globMatcher

/-- The options record of `isMatch`/`makeRe`; only `dot` affects matching. -/
structure MatchOptions where
  dot : Bool := false

/-- One member of a regex character class. -/
inductive ClsItem
  | ch (c : Char)
  | range (a b : Char)
deriving DecidableEq

/-- The regex fragments `makeRe` emits, one constructor per emitted piece:
literals (escaped or plain), `[^\/]` for `?`, `[^\/]*` for `*`, `.*` for a
bare `**`, `(?:.*\/)?` for `**/`, character classes copied verbatim, and
`(?:…|…)` groups for braces. -/
inductive GAtom
  | lit (c : Char)
  | anyNS
  | starNS
  | dotStar
  | globstarSlash
  | cls (neg : Bool) (items : List ClsItem)
  | group (alts : List (List GAtom))

/-- Split a character class body at its closing `]` (the first `]`, as in
`makeRe`'s `inClass` flag). -/
def splitClass : List Char → List Char × List Char
  | [] => ([], [])
  | ']' :: r => ([], r)
  | c :: r =>
    let p := splitClass r
    (c :: p.1, p.2)

/-- Interpret the raw characters of a class body: ranges `a-b` and literal
characters. -/
def parseClsItems : List Char → List ClsItem
  | [] => []
  | a :: '-' :: b :: r => ClsItem.range a b :: parseClsItems r
  | c :: r => ClsItem.ch c :: parseClsItems r

/-- Split a brace-group body at its closing brace. -/
def splitGroup : List Char → Option (List Char × List Char)
  | [] => none
  | '}' :: r => some ([], r)
  | c :: r => (splitGroup r).map (fun p => (c :: p.1, p.2))

/-- Split a list at a separator character (`String.prototype.split`). -/
def splitOnChar (sep : Char) : List Char → List (List Char)
  | [] => [[]]
  | c :: r =>
    let ps := splitOnChar sep r
    if c = sep then [] :: ps
    else
      match ps with
      | p :: rest => (c :: p) :: rest
      | [] => [[c]]

/-- The character loop of `makeRe`, producing the regex fragments in order.
`fuel` only bounds recursion; `length + 1` always suffices. -/
def parseAtoms : Nat → List Char → List GAtom
  | 0, _ => []
  | f + 1, cs =>
    match cs with
    | [] => []
    | '[' :: r =>
      let p := splitClass r
      let na :=
        match p.1 with
        | '^' :: cc => (true, parseClsItems cc)
        | cc => (false, parseClsItems cc)
      GAtom.cls na.1 na.2 :: parseAtoms f p.2
    | '*' :: '*' :: '/' :: r => GAtom.globstarSlash :: parseAtoms f r
    | '*' :: '*' :: r => GAtom.dotStar :: parseAtoms f r
    | '*' :: r => GAtom.starNS :: parseAtoms f r
    | '?' :: r => GAtom.anyNS :: parseAtoms f r
    | '{' :: r =>
      (match splitGroup r with
       | some p =>
         GAtom.group ((splitOnChar ',' p.1).map (parseAtoms f)) :: parseAtoms f p.2
       | none => [GAtom.group ((splitOnChar ',' r).map (parseAtoms f))])
    | c :: r => GAtom.lit c :: parseAtoms f r

/-- Structural size of an atom list, a bound for the matcher's recursion. -/
def atomsSize : List GAtom → Nat
  | [] => 0
  | GAtom.group alts :: r => 1 + altsSize alts + atomsSize r
  | _ :: r => 1 + atomsSize r
where altsSize : List (List GAtom) → Nat
  | [] => 0
  | a :: r => 1 + atomsSize a + altsSize r

/-- Does a character satisfy a class member? -/
def clsItemMatch (d : Char) : ClsItem → Bool
  | ClsItem.ch c => c = d
  | ClsItem.range a b => a ≤ d && d ≤ b

/-- Character-class matching, with negation. -/
def clsMatch (neg : Bool) (items : List ClsItem) (d : Char) : Bool :=
  let hit := items.any (clsItemMatch d)
  if neg then !hit else hit

mutual

/-- Anchored regex matching of the emitted fragments against the whole
remaining input (the compiled regexes are `^…$`-anchored).  Backtracking is
expressed by disjunction; `fuel` bounds the recursion depth and
`atomsSize atoms + input length + 1` always suffices. -/
def gmatch : Nat → List GAtom → List Char → Bool
  | 0, _, _ => false
  | _ + 1, [], cs => cs.isEmpty
  | f + 1, a :: as, cs =>
    match a with
    | GAtom.lit c =>
      (match cs with
       | d :: r => c = d && gmatch f as r
       | [] => false)
    | GAtom.anyNS =>
      (match cs with
       | d :: r => d ≠ '/' && gmatch f as r
       | [] => false)
    | GAtom.cls neg items =>
      (match cs with
       | d :: r => clsMatch neg items d && gmatch f as r
       | [] => false)
    | GAtom.starNS =>
      gmatch f as cs ||
      (match cs with
       | d :: r => d ≠ '/' && gmatch f (GAtom.starNS :: as) r
       | [] => false)
    | GAtom.dotStar =>
      gmatch f as cs ||
      (match cs with
       | d :: r => !isLineTerm d && gmatch f (GAtom.dotStar :: as) r
       | [] => false)
    | GAtom.globstarSlash => gmatch f as cs || gstar f as cs
    | GAtom.group alts => altsMatch f alts as cs

/-- `(?:.*\/)?` when the optional part is taken: any non-terminator run,
then a `/`, then the rest of the pattern. -/
def gstar : Nat → List GAtom → List Char → Bool
  | 0, _, _ => false
  | f + 1, as, cs =>
    match cs with
    | [] => false
    | d :: r => (d = '/' && gmatch f as r) || (!isLineTerm d && gstar f as r)

/-- A `(?:a|b|…)` group followed by the rest of the pattern. -/
def altsMatch : Nat → List (List GAtom) → List GAtom → List Char → Bool
  | 0, _, _, _ => false
  | _ + 1, [], _, _ => false
  | f + 1, alt :: rest, as, cs => gmatch f (alt ++ as) cs || altsMatch f rest as cs

end

/-- The dot-file guard `(?!(?:^|.*\/)\.(?!\.\/))` triggers (making the
whole regex fail) when a `.` stands at the path start or after a `/`,
except when that `.` begins `../`.  `okHere` tracks whether the current
position matches `(?:^|.*\/)`; `clean` tracks whether `.*` can still reach
this position. -/
def guardTrig : Bool → Bool → List Char → Bool
  | _, _, [] => false
  | okHere, clean, c :: r =>
    (okHere && c = '.' &&
      !(match r with
        | '.' :: '/' :: _ => true
        | _ => false)) ||
    guardTrig (clean && c = '/') (clean && !isLineTerm c) r

/-- Unanchored substring test (`String.prototype.includes`). -/
def hasSub (needle : List Char) : List Char → Bool
  | [] => leadsWith needle []
  | c :: r => leadsWith needle (c :: r) || hasSub needle r

/-- The condition under which `makeRe` prepends the dot-file guard. -/
def guardNeeded (pat : List Char) (o : MatchOptions) : Bool :=
  !o.dot && !(hasSub ('.' :: '*' :: []) pat) &&
  !(hasSub ('/' :: '.' :: []) pat) &&
  !((splitOnChar '/' pat).any (fun seg =>
    match seg with
    | '.' :: _ => true
    | _ => false))

/-- `makeRe(pattern, options).test(path)` on character lists: normalize the
pattern's separators, compile it to fragments, append the directory-pattern
suffix `(?:.*)?` for a trailing `/`, and test the anchored regex together
with the dot-file guard. -/
def globTestL (patternRaw : List Char) (o : MatchOptions) (path : List Char) : Bool :=
  let pat := patternRaw.map (fun c => if c = '\\' then '/' else c)
  let atoms := parseAtoms (pat.length + 1) pat
  let eff :=
    atoms ++
    (if (match pat.getLast? with
         | some '/' => true
         | _ => false) then
      [GAtom.dotStar]
    else [])
  (!(guardNeeded pat o) || !guardTrig true true path) &&
  gmatch (atomsSize eff + path.length + 1) eff path

/-- `makeRe(pattern, options).test(path)` on strings. -/
def globTest (pattern : String) (o : MatchOptions) (path : String) : Bool :=
  globTestL pattern.data o path.data

/-- Path normalization at the head of `isMatch`: backslashes to slashes,
then a leading `./` stripped. -/
def normPath (fp : String) : List Char :=
  let n := fp.data.map (fun c => if c = '\\' then '/' else c)
  match n with
  | '.' :: '/' :: r => r
  | _ => n

/-- Does a character list contain a `/`? -/
def hasSlash (cs : List Char) : Bool := cs.any (fun c => c = '/')

/-- Is a rule a negation rule (a leading `!`)? -/
def ruleIsNeg (p : String) : Bool :=
  match p.data with
  | '!' :: _ => true
  | _ => false

/-- The rule's actual pattern: a leading `!` stripped. -/
def rulePat (p : String) : List Char :=
  if ruleIsNeg p then p.data.drop 1 else p.data

/-- The skip condition of `isMatch` for one rule: the separator-normalized
pattern is basename-only (contains no `/`) while the normalized path
contains a `/`. -/
def ruleSkipped (fpN : List Char) (p : String) : Bool :=
  !(hasSlash ((rulePat p).map (fun c => if c = '\\' then '/' else c))) && hasSlash fpN

/-- A rule participates in the verdict: non-empty and not skipped. -/
def ruleActive (fpN : List Char) (p : String) : Bool :=
  !(p == "") && !(ruleSkipped fpN p)

/-- A rule hits: it participates and its pattern matches the path. -/
def ruleHits (fpN : List Char) (o : MatchOptions) (p : String) : Bool :=
  ruleActive fpN p && globTestL (rulePat p) o fpN

/-- The pattern loop of `isMatch` over the already-normalized path `fpN`:
empty patterns are skipped; basename-only patterns are skipped when the
path contains a `/`; a matching negation pattern returns `false`
immediately; otherwise matches of positive patterns are accumulated. -/
def isMatchLoop (fpN : List Char) (o : MatchOptions) : Bool → List String → Bool
  | hm, [] => hm
  | hm, p :: rest =>
    if p = "" then isMatchLoop fpN o hm rest
    else if ruleSkipped fpN p then isMatchLoop fpN o hm rest
    else
      let m := globTestL (rulePat p) o fpN
      if ruleIsNeg p then (if m then false else isMatchLoop fpN o hm rest)
      else isMatchLoop fpN o (hm || m) rest

/-- `isMatch(filepath, patterns, options)`: an empty path never matches;
otherwise the path is normalized and the pattern loop runs. -/
def isMatch (fp : String) (patterns : List String) (o : MatchOptions) : Bool :=
  if fp = "" then false
  else isMatchLoop (normPath fp) o false patterns

end globMatcher

/-! ### MarkdownGenerator (spec-modelled)

The implementation file of `MarkdownGenerator` is not under `src/`; only its
tests (`core.test.ts`, the splitByTokens tests) and callers are.  The
definitions in this namespace are therefore modelled from the spec, as their
doc comments state. -/

namespace MarkdownGenerator

/-- Modelled from the spec: a `FileChunk` record (§3): file name, content
(the full Markdown section fragment), token count, chunk index and chunk
count. -/
structure FileChunk where
  fileName : String
  content : String
  tokens : Nat
  chunkIndex : Nat
  chunkCount : Nat

/-- Modelled from the spec: the Enumerator (§4.1, §7).  `getTrackedFiles`
asks the version-control collaborator for the tracked paths (one per line);
a collaborator failure (the command raises or exits non-zero, here an
`Except.error`) yields the empty sequence — it never raises.  On success the
lines are filtered by the acceptance predicate of the exclusion resolver. -/
def getTrackedFiles (vcs : Except String String) (accept : String → Bool) :
    List String :=
  match vcs with
  | Except.error _ => []
  | Except.ok out => ((out.splitOn "\n").filter (fun l => l ≠ "")).filter accept

/-- Modelled from the spec: the Assembler (§4.6 and the generateMarkdown
tests): a `# Project Files` heading, then one `## path` section per file
whose body is non-empty after trimming, each wrapped in `~~~` fences. -/
def generateMarkdown (files : List (String × String)) : String :=
  "# Project Files\n\n" ++
    String.join (files.map (fun p =>
      if jsTrimL p.2.data = [] then ""
      else "## " ++ p.1 ++ "\n~~~\n" ++ p.2 ++ "\n~~~\n\n"))

/-- Modelled from the spec: the per-file framing of the Chunker (§4.7
step 1): header `\n## <path>\n~~~\n`. -/
def chunkHeader (path : String) : String := "\n## " ++ path ++ "\n~~~\n"

/-- Modelled from the spec: the footer `\n~~~\n` of the Chunker framing. -/
def chunkFooter : String := "\n~~~\n"

/-- Split a character list at every `\n` (the line split of §4.7 step 3). -/
def splitNl : List Char → List (List Char)
  | [] => [[]]
  | '\n' :: r => [] :: splitNl r
  | c :: r =>
    match splitNl r with
    | p :: ps => (c :: p) :: ps
    | [] => [[c]]

/-- The lines of a file body. -/
def linesOf (s : String) : List String := (splitNl s.data).map (fun l => ⟨l⟩)

/-- Modelled from the spec: the greedy accumulation of §4.7 step 3: lines
are gathered into a buffer while `tokens(buffer + line) ≤ budget`; when the
next line would exceed the budget the buffer is flushed and that line starts
a new buffer (step 4: an oversized line is emitted on its own rather than
dropped). -/
def gatherBodies (tk : String → Nat) (budget : Nat) :
    Option String → List String → List String
  | none, [] => []
  | some b, [] => [b]
  | none, l :: rest => gatherBodies tk budget (some l) rest
  | some b, l :: rest =>
    let cand := b ++ "\n" ++ l
    if tk cand ≤ budget then gatherBodies tk budget (some cand) rest
    else b :: gatherBodies tk budget (some l) rest

/-- Modelled from the spec: `splitByTokens` for one file (§4.7).  If the
framing alone reaches `maxTokens` the file cannot be chunked and a single
framing-only chunk records the overflow (step 2); otherwise the body is
split on line boundaries, gathered greedily under
`contentBudget = maxTokens − H − F`, and each gathered body is wrapped in
the framing; a second pass fills in `chunkCount` (step 5). -/
def splitFileByTokens (tk : String → Nat) (maxTokens : Nat)
    (path body : String) : List FileChunk :=
  let header := chunkHeader path
  let H := tk header
  let F := tk chunkFooter
  if maxTokens ≤ H + F then
    [{ fileName := path, content := header ++ chunkFooter,
       tokens := tk (header ++ chunkFooter), chunkIndex := 0, chunkCount := 1 }]
  else
    let budget := maxTokens - (H + F)
    let bodies := gatherBodies tk budget none (linesOf body)
    let n := bodies.length
    bodies.enum.map (fun p =>
      { fileName := path, content := header ++ (p.2 ++ chunkFooter),
        tokens := tk (header ++ (p.2 ++ chunkFooter)),
        chunkIndex := p.1, chunkCount := n })

/-- Modelled from the spec: `splitByTokens` over all accepted files, chunks
emitted in enumeration order. -/
def splitByTokens (tk : String → Nat) (maxTokens : Nat)
    (files : List (String × String)) : List FileChunk :=
  (files.map (fun p => splitFileByTokens tk maxTokens p.1 p.2)).flatten

end MarkdownGenerator

/-- A scan step that, on all-whitespace input, either does not fire or
emits an all-whitespace replacement and leaves an all-whitespace rest. -/
def StepWs (step : List Char → List Char → Option (List Char × List Char × List Char)) : Prop :=
  ∀ prev cs, (∀ c ∈ cs, isJsWs c = true) →
    step prev cs = none ∨
    ∃ con rep rest, step prev cs = some (con, rep, rest) ∧
      (∀ c ∈ rep, isJsWs c = true) ∧ (∀ c ∈ rest, isJsWs c = true)

/-- Every alternative of a key list starts with a character that is not
whitespace (in either case), so no key can match at a whitespace position. -/
def keyHeadsSolid (keys : List (List Char)) : Bool :=
  keys.all fun a =>
    match a with
    | [] => false
    | k0 :: _ => !isJsWs k0 && !isJsWs k0.toLower

/-- The verdict of gitignore-style last-match-wins semantics: the polarity
of the last rule that hits, if any (this is what the spec prescribes for
pattern lists). -/
def lastMatchVerdict (fpN : List Char) (o : globMatcher.MatchOptions)
    (pats : List String) : Option Bool :=
  pats.foldl
    (fun acc p =>
      if globMatcher.ruleHits fpN o p then some (!(globMatcher.ruleIsNeg p)) else acc)
    none

/-- The sentinel token `[REDACTED_JWT]`. -/
def redactedJwtTok : List Char :=
  '[' :: 'R' :: 'E' :: 'D' :: 'A' :: 'C' :: 'T' :: 'E' :: 'D' :: '_' :: 'J' :: 'W' :: 'T' :: ']' :: []

/-- The sentinel token `[REDACTED_HASH]`. -/
def redactedHashTok : List Char :=
  '[' :: 'R' :: 'E' :: 'D' :: 'A' :: 'C' :: 'T' :: 'E' :: 'D' :: '_' :: 'H' :: 'A' :: 'S' :: 'H' :: ']' :: []

/-- The sentinel token `[REDACTED_BASE64]`. -/
def redactedB64Tok : List Char :=
  '[' :: 'R' :: 'E' :: 'D' :: 'A' :: 'C' :: 'T' :: 'E' :: 'D' :: '_' :: 'B' :: 'A' :: 'S' :: 'E' :: '6' :: '4' :: ']' :: []


/-- One step of the claim-side "exhausted by sentinels" reading: if the
character list starts with one of the given sentinel tokens, chop that
token off; otherwise fail. -/
def chopAny : List (List Char) → List Char → Option (List Char)
  | [], _ => none
  | t :: ts, cs => if leadsWith t cs then some (cs.drop t.length) else chopAny ts cs

/-- Fueled check that a character list is a non-empty sequence of sentinel
tokens separated by JavaScript whitespace. -/
def exhAux (toks : List (List Char)) : Nat → List Char → Bool
  | 0, _ => false
  | f + 1, cs =>
    match chopAny toks cs with
    | none => false
    | some rest =>
      let r2 := rest.dropWhile isJsWs
      r2.isEmpty || exhAux toks f r2

/-- A line's non-whitespace content is exhausted by the given sentinel
tokens. -/
def exhaustedBy (toks : List (List Char)) (l : List Char) : Bool :=
  exhAux toks (l.length + 1) (l.dropWhile isJsWs)

/-- The four sentinel tokens that the specification names. -/
def sentinelToks : List (List Char) :=
  [redactedTok, redactedJwtTok, redactedHashTok, redactedB64Tok]

/-- The sentinel tokens that the post-pass filter regex
`\[REDACTED(?:_[A-Z]+)?\]` actually recognises: `[REDACTED_BASE64]` is
excluded because `[A-Z]+` cannot match the digits of `BASE64`. -/
def filterToks : List (List Char) :=
  [redactedTok, redactedJwtTok, redactedHashTok]

/-- Claim-side predicate: the line is whitespace plus the four named
sentinel tokens only. -/
def sentinelExhausted (l : List Char) : Bool :=
  exhaustedBy sentinelToks l


end Toak

namespace Toak

/-! ## Claims -/

/-- Claim C3: the claim asserts `clean (clean x) = clean x` for every input.
It is false: on `"a/console.log(x);/b"` the console-statement removal
splices the surrounding slashes into a new `//` line comment, which only a
second pass removes (`clean` gives `"a//b"`, a second `clean` gives
`"a"`). -/
theorem c3_counterexample :
    ¬ (∀ x : String, TokenCleaner.clean (TokenCleaner.clean x) = TokenCleaner.clean x) :=
  fun h => absurd (h "a/console.log(x);/b") (by decide)

/-- Claim C3 (amended): the Cleaner is idempotent exactly on inputs whose
cleaned form is a fixed point of each of the seven built-in transforms; in
general a second application can remove more, as when console-statement
removal splices a new `//` comment. -/
theorem c3_amended (x : String)
    (h1 : runScan stepLineComment (TokenCleaner.clean x).data = (TokenCleaner.clean x).data)
    (h2 : runScan stepBlockComment (TokenCleaner.clean x).data = (TokenCleaner.clean x).data)
    (h3 : runScan stepConsole (TokenCleaner.clean x).data = (TokenCleaner.clean x).data)
    (h4 : runScan stepEmptyLines (TokenCleaner.clean x).data = (TokenCleaner.clean x).data)
    (h5 : runScan stepTrailingSpaces (TokenCleaner.clean x).data = (TokenCleaner.clean x).data)
    (h6 : runScan stepImport (TokenCleaner.clean x).data = (TokenCleaner.clean x).data)
    (h7 : runScan stepCollapseNl (TokenCleaner.clean x).data = (TokenCleaner.clean x).data) :
    TokenCleaner.clean (TokenCleaner.clean x) = TokenCleaner.clean x := by
  show (⟨TokenCleaner.cleanL (TokenCleaner.clean x).data⟩ : String) = TokenCleaner.clean x
  unfold TokenCleaner.cleanL
  rw [h1, h2, h3, h4, h5, h6, h7]

/-- Claim C3 witness: the amended idempotence applied to a concrete input
whose cleaned form no transform re-matches. -/
theorem c3_amended_witness :
    runScan stepLineComment (TokenCleaner.clean "const a = 1;").data
      = (TokenCleaner.clean "const a = 1;").data ∧
    TokenCleaner.clean (TokenCleaner.clean "const a = 1;") = TokenCleaner.clean "const a = 1;" :=
  ⟨by decide,
   c3_amended "const a = 1;" (by decide) (by decide) (by decide) (by decide)
     (by decide) (by decide) (by decide)⟩

/-- Claim C4: the claim asserts that comment removal happens before secret
redaction, so a credential-shaped value inside a comment is never redacted.
It is false: `cleanAndRedact` redacts first (TokenCleaner.ts line 86), so
the credential in `// password = "abc123"` is replaced by a sentinel, and
the line filter then drops the entire line — losing the code
`const x = 1;` that shares it, which comment-first ordering would keep. -/
theorem c4_counterexample :
    TokenCleaner.redactSecrets "// password = \"abc123\""
        = "// password = \"[REDACTED]\"" ∧
    TokenCleaner.cleanAndRedact "const x = 1; // password = \"abc123\"" = "" := by
  constructor <;> decide

/-- Claim C4 (amended): in `cleanAndRedact` secret redaction runs before
comment removal: a credential-shaped value inside a comment is redacted,
and the post-pass line filter then drops the whole line including any code
on it; cleaning the same input first would instead keep that code. -/
theorem c4_amended :
    TokenCleaner.redactSecrets "const x = 1; // password = \"abc123\""
        = "const x = 1; // password = \"[REDACTED]\"" ∧
    TokenCleaner.cleanAndRedact "const x = 1; // password = \"abc123\"" = "" ∧
    jsTrimL (TokenCleaner.cleanL ("const x = 1; // password = \"abc123\"").data)
        = ("const x = 1;").data := by
  refine ⟨by decide, by decide, by decide⟩

/-- Claim C5: the claim asserts `redactSecrets (redactSecrets x) =
redactSecrets x` for every input.  It is false: on `API_KEY='ab 'eyJx.y.z'`
the first pass leaves `API_KEY=[REDACTED][REDACTED_JWT]'`, whose sentinel
run the env-style pattern matches again as an unquoted value, so a second
pass shortens it to `API_KEY=[REDACTED]`. -/
theorem c5_counterexample :
    ¬ (∀ x : String,
      TokenCleaner.redactSecrets (TokenCleaner.redactSecrets x)
        = TokenCleaner.redactSecrets x) :=
  fun h => absurd (h "API_KEY='ab 'eyJx.y.z'") (by decide)

/-- Claim C5 (amended): the Redactor is idempotent exactly on inputs whose
redacted form is a fixed point of each of the nine built-in secret
patterns; in general a second application can change the text again, as
when a sentinel run re-matches the env-style pattern. -/
theorem c5_amended (x : String)
    (h1 : runScan stepJson (TokenCleaner.redactSecrets x).data = (TokenCleaner.redactSecrets x).data)
    (h2 : runScan stepJwt (TokenCleaner.redactSecrets x).data = (TokenCleaner.redactSecrets x).data)
    (h3 : runScan stepAssign (TokenCleaner.redactSecrets x).data = (TokenCleaner.redactSecrets x).data)
    (h4 : runScan stepEnv (TokenCleaner.redactSecrets x).data = (TokenCleaner.redactSecrets x).data)
    (h5 : runScan stepBearer (TokenCleaner.redactSecrets x).data = (TokenCleaner.redactSecrets x).data)
    (h6 : runScan stepAuthBearer (TokenCleaner.redactSecrets x).data = (TokenCleaner.redactSecrets x).data)
    (h7 : runScan stepHex (TokenCleaner.redactSecrets x).data = (TokenCleaner.redactSecrets x).data)
    (h8 : runScan stepB64 (TokenCleaner.redactSecrets x).data = (TokenCleaner.redactSecrets x).data)
    (h9 : runScan stepYaml (TokenCleaner.redactSecrets x).data = (TokenCleaner.redactSecrets x).data) :
    TokenCleaner.redactSecrets (TokenCleaner.redactSecrets x)
      = TokenCleaner.redactSecrets x := by
  show (⟨TokenCleaner.redactSecretsL (TokenCleaner.redactSecrets x).data⟩ : String)
      = TokenCleaner.redactSecrets x
  unfold TokenCleaner.redactSecretsL
  rw [h1, h2, h3, h4, h5, h6, h7, h8, h9]

/-- Claim C5 witness: the amended idempotence applied to a concrete input
whose redacted form every secret pattern leaves unchanged. -/
theorem c5_amended_witness :
    runScan stepAssign (TokenCleaner.redactSecrets "const apiKey = '12345-ABCDE';").data
      = (TokenCleaner.redactSecrets "const apiKey = '12345-ABCDE';").data ∧
    TokenCleaner.redactSecrets (TokenCleaner.redactSecrets "const apiKey = '12345-ABCDE';")
      = TokenCleaner.redactSecrets "const apiKey = '12345-ABCDE';" :=
  ⟨by decide,
   c5_amended "const apiKey = '12345-ABCDE';" (by decide) (by decide) (by decide)
     (by decide) (by decide) (by decide) (by decide) (by decide) (by decide)⟩

/-- The pattern loop computes: false as soon as any active negation rule
hits, else the accumulator joined with whether any active positive rule
hits. -/
theorem isMatchLoop_spec (fpN : List Char) (o : globMatcher.MatchOptions) :
    ∀ (pats : List String) (hm : Bool),
      globMatcher.isMatchLoop fpN o hm pats =
        ((pats.all fun p => !(globMatcher.ruleIsNeg p && globMatcher.ruleHits fpN o p)) &&
         (hm || (pats.any fun p => !(globMatcher.ruleIsNeg p) && globMatcher.ruleHits fpN o p)))
  | [], hm => by simp [globMatcher.isMatchLoop]
  | p :: rest, hm => by
    have ih := isMatchLoop_spec fpN o rest
    unfold globMatcher.isMatchLoop
    by_cases hp : p = ""
    · subst hp
      have hhit : globMatcher.ruleHits fpN o "" = false := by
        simp [globMatcher.ruleHits, globMatcher.ruleActive]
      simp [ih, hhit]
    · simp only [if_neg hp]
      by_cases hs : globMatcher.ruleSkipped fpN p = true
      · have hhit : globMatcher.ruleHits fpN o p = false := by
          simp [globMatcher.ruleHits, globMatcher.ruleActive, hs]
        simp [hs, ih, hhit]
      · have hact : globMatcher.ruleActive fpN p = true := by
          simp [globMatcher.ruleActive, hp, eq_false_of_ne_true hs]
        have hhit : globMatcher.ruleHits fpN o p
            = globMatcher.globTestL (globMatcher.rulePat p) o fpN := by
          simp [globMatcher.ruleHits, hact]
        simp only [eq_false_of_ne_true hs, if_false]
        by_cases hn : globMatcher.ruleIsNeg p = true
        · by_cases hg : globMatcher.globTestL (globMatcher.rulePat p) o fpN = true
          · simp [hn, hg, hhit]
          · simp [hn, eq_false_of_ne_true hg, ih, hhit]
        · have hn' := eq_false_of_ne_true hn
          by_cases hg : globMatcher.globTestL (globMatcher.rulePat p) o fpN = true
          · simp [hn', hg, ih, hhit, Bool.or_assoc]
          · simp [hn', eq_false_of_ne_true hg, ih, hhit]

/-- Claim C2: the claim asserts last-match-wins semantics for `isMatch`:
the verdict equals the polarity of the last matching rule.  It is false:
for the path `foo` and the list `["!foo", "foo"]` the last matching rule is
the positive `foo`, yet `isMatch` returns `false` because a matching
negation rule short-circuits the whole list regardless of order. -/
theorem c2_counterexample :
    ¬ (∀ (fp : String) (pats : List String) (o : globMatcher.MatchOptions) (b : Bool),
        lastMatchVerdict (globMatcher.normPath fp) o pats = some b →
        globMatcher.isMatch fp pats o = b) :=
  fun h => absurd (h "foo" ["!foo", "foo"] ⟨false⟩ true (by decide)) (by decide)

/-- Claim C2 (amended): `isMatch` ignores rule order entirely: it returns
`true` iff the path is non-empty, no active negation rule matches it, and
some active positive rule matches it — a matching negation rule wins
regardless of position, not the last matching rule. -/
theorem c2_amended (fp : String) (pats : List String) (o : globMatcher.MatchOptions) :
    globMatcher.isMatch fp pats o =
      (!(fp == "") &&
       (pats.all fun p =>
         !(globMatcher.ruleIsNeg p && globMatcher.ruleHits (globMatcher.normPath fp) o p)) &&
       (pats.any fun p =>
         !(globMatcher.ruleIsNeg p) && globMatcher.ruleHits (globMatcher.normPath fp) o p)) := by
  unfold globMatcher.isMatch
  by_cases hfp : fp = ""
  · simp [hfp]
  · rw [if_neg hfp, isMatchLoop_spec]
    simp [hfp, Bool.and_assoc]

/-- Claim C6: the claim asserts that a pattern without `/` (after stripping
a leading `!`) never matches a path containing `/`, under every dot-option.
It is false at the normalization boundary: the path `./foo` contains a `/`,
but `isMatch` strips the leading `./` before the basename-only skip test,
so the slash-free pattern `foo` matches it. -/
theorem c6_counterexample :
    ¬ (∀ (o : globMatcher.MatchOptions) (p fp : String),
        globMatcher.hasSlash (globMatcher.rulePat p) = false →
        globMatcher.hasSlash fp.data = true →
        globMatcher.isMatch fp [p] o = false) :=
  fun h => absurd (h ⟨false⟩ "foo" "./foo" (by decide) (by decide)) (by decide)

/-- Claim C6 (amended): a pattern that is basename-only after separator
normalization never matches a path that still contains a `/` after the
path normalization of `isMatch` (backslashes to slashes, a leading `./`
stripped), under every dot-option: such rules are skipped outright. -/
theorem c6_amended (o : globMatcher.MatchOptions) (p fp : String)
    (h1 : globMatcher.hasSlash
        ((globMatcher.rulePat p).map (fun c => if c = '\\' then '/' else c)) = false)
    (h2 : globMatcher.hasSlash (globMatcher.normPath fp) = true) :
    globMatcher.isMatch fp [p] o = false := by
  have hsk : globMatcher.ruleSkipped (globMatcher.normPath fp) p = true := by
    simp [globMatcher.ruleSkipped, h1, h2]
  unfold globMatcher.isMatch
  by_cases hfp : fp = ""
  · simp [hfp]
  · rw [if_neg hfp]
    unfold globMatcher.isMatchLoop
    by_cases hp : p = ""
    · simp [hp, globMatcher.isMatchLoop]
    · simp [hp, hsk, globMatcher.isMatchLoop]

/-- Claim C6 witness: the amended statement applied to the basename-only
pattern `*.js` and the path `src/a.js`. -/
theorem c6_amended_witness :
    globMatcher.hasSlash
        ((globMatcher.rulePat "*.js").map (fun c => if c = '\\' then '/' else c)) = false ∧
    globMatcher.hasSlash (globMatcher.normPath "src/a.js") = true ∧
    globMatcher.isMatch "src/a.js" ["*.js"] ⟨false⟩ = false :=
  ⟨by decide, by decide, c6_amended ⟨false⟩ "*.js" "src/a.js" (by decide) (by decide)⟩

/-- Hex digits are word characters. -/
theorem hex_is_word (c : Char) (h : isHexDigit c = true) : isWordChar c = true := by
  unfold isHexDigit at h
  unfold isWordChar
  simp only [Bool.or_eq_true, Bool.and_eq_true, decide_eq_true_eq] at h ⊢
  rcases h with (h | h) | h
  · exact Or.inl (Or.inr h)
  · exact Or.inl (Or.inl (Or.inl ⟨h.1, le_trans h.2 (by decide)⟩))
  · exact Or.inl (Or.inl (Or.inr ⟨h.1, le_trans h.2 (by decide)⟩))

/-- Non-word characters are not hex digits. -/
theorem not_hex_of_not_word (c : Char) (h : isWordChar c = false) :
    isHexDigit c = false := by
  cases hh : isHexDigit c
  · rfl
  · rw [hex_is_word c hh] at h
    exact absurd h (by simp)

/-- `takeCount` on a satisfying run: when `k` characters are available it
returns the first `k` and the rest. -/
theorem takeCount_mid (p : Char → Bool) :
    ∀ (k : Nat) (run tail : List Char), k ≤ run.length →
      (∀ c ∈ run, p c = true) →
      takeCount k p (run ++ tail) = some (run.take k, run.drop k ++ tail)
  | 0, run, tail, _, _ => by simp [takeCount]
  | k + 1, [], tail, hk, _ => by simp at hk
  | k + 1, c :: run', tail, hk, hall => by
    have hc : p c = true := hall c (by simp)
    have ih := takeCount_mid p k run' tail (by simpa using hk)
      (fun x hx => hall x (by simp [hx]))
    simp [takeCount, hc, ih]

/-- `takeCount` for exactly the run length. -/
theorem takeCount_all (p : Char → Bool) (run tail : List Char)
    (hall : ∀ c ∈ run, p c = true) :
    takeCount run.length p (run ++ tail) = some (run, tail) := by
  rw [takeCount_mid p run.length run tail le_rfl hall]
  simp

/-- `takeCount` fails when the run is too short and the next character does
not satisfy the predicate. -/
theorem takeCount_short (p : Char → Bool) :
    ∀ (run : List Char) (k : Nat) (b : Char) (tail : List Char),
      run.length < k → (∀ c ∈ run, p c = true) → p b = false →
      takeCount k p (run ++ b :: tail) = none
  | [], k, b, tail, hk, _, hb => by
    match k, hk with
    | k' + 1, _ => simp [takeCount, hb]
  | c :: run', k, b, tail, hk, hall, hb => by
    match k, hk with
    | k' + 1, hk =>
      have hc : p c = true := hall c (by simp)
      have ih := takeCount_short p run' k' b tail (by simpa using hk)
        (fun x hx => hall x (by simp [hx])) hb
      simp [takeCount, hc, ih]

/-- Any scan pass leaves the empty input empty. -/
theorem rscan_nil (step : List Char → List Char → Option (List Char × List Char × List Char))
    (f : Nat) (prev : List Char) : rscan step f prev [] = [] := by
  cases f <;> rfl

/-- The hex step fires nowhere after a word character: over a hex run (and
one trailing character) the scan just copies, because no position offers a
left word boundary. -/
theorem rscan_hex_copy :
    ∀ (run : List Char) (f : Nat) (c : Char) (pr : List Char) (b : Char),
      isWordChar c = true → (∀ x ∈ run, isHexDigit x = true) →
      rscan stepHex f (c :: pr) (run ++ [b]) = run ++ [b]
  | run, 0, c, pr, b, _, _ => rfl
  | [], f + 1, c, pr, b, hc, _ => by
    have hstep : stepHex (c :: pr) [b] = none := by
      simp [stepHex, hc]
    simp [rscan, hstep, rscan_nil]
  | x :: run', f + 1, c, pr, b, hc, hall => by
    have hstep : stepHex (c :: pr) (x :: (run' ++ [b])) = none := by
      simp [stepHex, hc]
    have hx : isWordChar x = true := hex_is_word x (hall x (by simp))
    have ih := rscan_hex_copy run' f x (c :: pr) b hx
      (fun y hy => hall y (by simp [hy]))
    simp [rscan, hstep, ih]

/-- `takeCount` with a positive count fails on a non-satisfying head. -/
theorem takeCount_head_false (k : Nat) (p : Char → Bool) (c : Char) (cs : List Char)
    (hk : 0 < k) (hc : p c = false) : takeCount k p (c :: cs) = none := by
  match k, hk with
  | k' + 1, _ => simp [takeCount, hc]

/-- Unfolding a scan pass at a matching position. -/
theorem rscan_cons_some
    (step : List Char → List Char → Option (List Char × List Char × List Char))
    (f : Nat) (prev con rep rest : List Char) (c : Char) (cs : List Char)
    (h : step prev (c :: cs) = some (con, rep, rest)) :
    rscan step (f + 1) prev (c :: cs) = rep ++ rscan step f (con.reverse ++ prev) rest := by
  simp [rscan, h]

/-- Unfolding a scan pass at a non-matching position. -/
theorem rscan_cons_none
    (step : List Char → List Char → Option (List Char × List Char × List Char))
    (f : Nat) (prev : List Char) (c : Char) (cs : List Char)
    (h : step prev (c :: cs) = none) :
    rscan step (f + 1) prev (c :: cs) = c :: rscan step f (c :: prev) cs := by
  simp [rscan, h]

/-- Claim C7: the hex-hash pattern replaces a word-bounded hexadecimal run
with `[REDACTED_HASH]` exactly when the run is 40 or 64 characters long
(stated for a run flanked by arbitrary non-word characters), and the
6-character `#ff00ff` is left unchanged by the whole of `redactSecrets`,
while the spec's 40-hex scenario S5 is redacted. -/
theorem c7_hex_exact_lengths :
    (∀ (n : Nat) (a b : Char) (run : List Char),
       isWordChar a = false → isWordChar b = false →
       run.length = n → (∀ c ∈ run, isHexDigit c = true) →
       runScan stepHex (a :: (run ++ [b])) =
         (if n = 40 ∨ n = 64 then a :: ("[REDACTED_HASH]".data ++ [b])
          else a :: (run ++ [b]))) ∧
    TokenCleaner.redactSecrets "#ff00ff" = "#ff00ff" ∧
    TokenCleaner.redactSecrets "const hash = 'abcdef1234567890abcdef1234567890abcdef12';"
      = "const hash = '[REDACTED_HASH]';" := by
  refine ⟨?_, by decide, by decide⟩
  intro n a b run ha hb hlen hhex
  subst hlen
  have hna : isHexDigit a = false := not_hex_of_not_word a ha
  have hnb : isHexDigit b = false := not_hex_of_not_word b hb
  have hstepA : stepHex [] (a :: (run ++ [b])) = none := by
    have htc40a : takeCount 40 isHexDigit (a :: (run ++ [b])) = none :=
      takeCount_head_false 40 _ a _ (by decide) hna
    have htc64a : takeCount 64 isHexDigit (a :: (run ++ [b])) = none :=
      takeCount_head_false 64 _ a _ (by decide) hna
    simp [stepHex, htc40a, htc64a]
  show rscan stepHex ((a :: (run ++ [b])).length + 1) [] (a :: (run ++ [b])) = _
  have hlen1 : (a :: (run ++ [b])).length + 1 = (run.length + 2) + 1 := by simp
  rw [hlen1, rscan_cons_none _ _ _ _ _ hstepA]
  by_cases h4064 : run.length = 40 ∨ run.length = 64
  · rw [if_pos h4064]
    have hrunne : run ≠ [] := by
      intro hrn; subst hrn; rcases h4064 with h | h <;> simp at h
    have hstepB : stepHex [a] (run ++ [b]) = some (run, "[REDACTED_HASH]".data, [b]) := by
      rcases h4064 with h40 | h64
      · have ht : takeCount 40 isHexDigit (run ++ [b]) = some (run, [b]) := by
          rw [← h40]; exact takeCount_all _ run [b] hhex
        have hboundb : wordBoundAfter [b] = true := by simp [wordBoundAfter, hb]
        simp [stepHex, ha, ht, hboundb]
      · have ht40 : takeCount 40 isHexDigit (run ++ [b])
            = some (run.take 40, run.drop 40 ++ [b]) :=
          takeCount_mid _ 40 run [b] (by omega) hhex
        obtain ⟨z, zs, hdz⟩ : ∃ z zs, run.drop 40 = z :: zs := by
          cases hd : run.drop 40 with
          | nil => have := List.length_drop 40 run; rw [hd] at this; simp [h64] at this
          | cons z zs => exact ⟨z, zs, rfl⟩
        have hzword : isWordChar z = true :=
          hex_is_word z (hhex z (List.drop_subset 40 run
            (by rw [hdz]; exact List.mem_cons_self z zs)))
        have hbound : wordBoundAfter (run.drop 40 ++ [b]) = false := by
          rw [hdz]; simp [wordBoundAfter, hzword]
        have ht64 : takeCount 64 isHexDigit (run ++ [b]) = some (run, [b]) := by
          rw [← h64]; exact takeCount_all _ run [b] hhex
        have hboundb : wordBoundAfter [b] = true := by simp [wordBoundAfter, hb]
        simp [stepHex, ha, ht40, hbound, ht64, hboundb]
    obtain ⟨y, ys, hrev⟩ : ∃ y ys, run.reverse = y :: ys := by
      cases hr : run.reverse with
      | nil => exact absurd (List.reverse_eq_nil_iff.mp hr) hrunne
      | cons y ys => exact ⟨y, ys, rfl⟩
    have hymem : y ∈ run := List.mem_reverse.mp (by rw [hrev]; exact List.mem_cons_self y ys)
    have hyword : isWordChar y = true := hex_is_word y (hhex y hymem)
    have hstepC : stepHex (run.reverse ++ [a]) [b] = none := by
      rw [hrev]
      simp [stepHex, hyword]
    obtain ⟨r0, rrest, hrun⟩ : ∃ r0 rrest, run = r0 :: rrest := by
      cases run with
      | nil => exact absurd rfl hrunne
      | cons r0 rrest => exact ⟨r0, rrest, rfl⟩
    subst hrun
    rw [List.cons_append] at hstepB
    have hlen2 : (r0 :: rrest).length + 2 = (rrest.length + 2) + 1 := by simp
    rw [List.cons_append, hlen2, rscan_cons_some _ _ _ _ _ _ _ _ hstepB]
    rw [show rrest.length + 2 = (rrest.length + 1) + 1 from rfl]
    rw [rscan_cons_none _ _ _ _ _ hstepC, rscan_nil]
  · rw [if_neg h4064]
    push_neg at h4064
    obtain ⟨h40, h64⟩ := h4064
    have hstepB : stepHex [a] (run ++ [b]) = none := by
      rcases Nat.lt_trichotomy run.length 40 with hlt | heq | hgt
      · have ht40 : takeCount 40 isHexDigit (run ++ b :: []) = none :=
          takeCount_short _ run 40 b [] hlt hhex hnb
        have ht64 : takeCount 64 isHexDigit (run ++ b :: []) = none :=
          takeCount_short _ run 64 b [] (by omega) hhex hnb
        simp [stepHex, ha, ht40, ht64]
      · exact absurd heq h40
      · have ht40 : takeCount 40 isHexDigit (run ++ [b])
            = some (run.take 40, run.drop 40 ++ [b]) :=
          takeCount_mid _ 40 run [b] (by omega) hhex
        obtain ⟨z, zs, hdz⟩ : ∃ z zs, run.drop 40 = z :: zs := by
          cases hd : run.drop 40 with
          | nil =>
            have := List.length_drop 40 run
            rw [hd] at this
            simp at this
            omega
          | cons z zs => exact ⟨z, zs, rfl⟩
        have hzword : isWordChar z = true :=
          hex_is_word z (hhex z (List.drop_subset 40 run
            (by rw [hdz]; exact List.mem_cons_self z zs)))
        have hbound : wordBoundAfter (run.drop 40 ++ [b]) = false := by
          rw [hdz]; simp [wordBoundAfter, hzword]
        rcases Nat.lt_trichotomy run.length 64 with hlt2 | heq2 | hgt2
        · have ht64 : takeCount 64 isHexDigit (run ++ b :: []) = none :=
            takeCount_short _ run 64 b [] hlt2 hhex hnb
          simp [stepHex, ha, ht40, hbound, ht64]
        · exact absurd heq2 h64
        · have ht64 : takeCount 64 isHexDigit (run ++ [b])
              = some (run.take 64, run.drop 64 ++ [b]) :=
            takeCount_mid _ 64 run [b] (by omega) hhex
          obtain ⟨w, ws, hdw⟩ : ∃ w ws, run.drop 64 = w :: ws := by
            cases hd : run.drop 64 with
            | nil =>
              have := List.length_drop 64 run
              rw [hd] at this
              simp at this
              omega
            | cons w ws => exact ⟨w, ws, rfl⟩
          have hwword : isWordChar w = true :=
            hex_is_word w (hhex w (List.drop_subset 64 run
              (by rw [hdw]; exact List.mem_cons_self w ws)))
          have hbound2 : wordBoundAfter (run.drop 64 ++ [b]) = false := by
            rw [hdw]; simp [wordBoundAfter, hwword]
          simp [stepHex, ha, ht40, hbound, ht64, hbound2]
    cases run with
    | nil =>
      have hstepD : stepHex [a] ([] ++ [b]) = none := hstepB
      rw [List.nil_append] at hstepD ⊢
      rw [show ([] : List Char).length + 2 = 1 + 1 from rfl]
      rw [rscan_cons_none _ _ _ _ _ hstepD, rscan_nil]
    | cons x run' =>
      have hxword : isWordChar x = true := hex_is_word x (hhex x (by simp))
      rw [List.cons_append] at hstepB ⊢
      rw [show (x :: run').length + 2 = (run'.length + 2) + 1 by simp]
      rw [rscan_cons_none _ _ _ _ _ hstepB]
      rw [rscan_hex_copy run' (run'.length + 2) x [a] b hxword
        (fun y hy => hhex y (by simp [hy]))]

/-- Claim C7 witness: the characterization applied to the 6-character run
of `#ff00ff;` (not replaced) and to a 40-character run (replaced). -/
theorem c7_hex_exact_lengths_witness :
    isWordChar '#' = false ∧ isWordChar ';' = false ∧
    runScan stepHex ('#' :: ("ff00ff".data ++ [';'])) = '#' :: ("ff00ff".data ++ [';']) ∧
    runScan stepHex ('#' :: (("a94a8fe5ccb19ba61c4c0873d391e987982fbbd3").data ++ [';']))
      = '#' :: ("[REDACTED_HASH]".data ++ [';']) := by
  refine ⟨by decide, by decide, ?_, ?_⟩
  · have h := c7_hex_exact_lengths.1 6 '#' ';' "ff00ff".data (by decide) (by decide)
      (by decide) (by decide)
    simpa using h
  · have h := c7_hex_exact_lengths.1 40 '#' ';'
      ("a94a8fe5ccb19ba61c4c0873d391e987982fbbd3").data (by decide) (by decide)
      (by decide) (by decide)
    simpa using h

/-- The second component of an enumerated entry is a member of the list. -/
theorem mem_enumFrom_snd : ∀ (l : List String) (n : Nat) (p : Nat × String),
    p ∈ l.enumFrom n → p.2 ∈ l
  | [], _, _, h => by simp [List.enumFrom] at h
  | a :: l, n, p, h => by
    simp only [List.enumFrom, List.mem_cons] at h
    rcases h with rfl | h
    · simp
    · exact List.mem_cons_of_mem a (mem_enumFrom_snd l (n + 1) p h)

/-- Greedy-gathering invariant: every emitted body either fits the budget
or is one of the original lines (only bodies that passed the
`tk (buffer + line) ≤ budget` test ever grow beyond a single line). -/
theorem gatherBodies_mem (tk : String → Nat) (budget : Nat) :
    ∀ (rest : List String) (buf : Option String) (S : List String),
      (∀ l ∈ rest, l ∈ S) →
      (∀ b, buf = some b → tk b ≤ budget ∨ b ∈ S) →
      ∀ x ∈ MarkdownGenerator.gatherBodies tk budget buf rest, tk x ≤ budget ∨ x ∈ S
  | [], none, S, _, _ => by simp [MarkdownGenerator.gatherBodies]
  | [], some b, S, _, hbuf => by
    intro x hx
    simp [MarkdownGenerator.gatherBodies] at hx
    subst hx
    exact hbuf x rfl
  | l :: rest, none, S, hrest, _ => by
    intro x hx
    refine gatherBodies_mem tk budget rest (some l) S
      (fun y hy => hrest y (by simp [hy]))
      (fun b hb => by cases hb; exact Or.inr (hrest l (by simp))) x ?_
    simpa [MarkdownGenerator.gatherBodies] using hx
  | l :: rest, some b, S, hrest, hbuf => by
    intro x hx
    by_cases hc : tk (b ++ "\n" ++ l) ≤ budget
    · refine gatherBodies_mem tk budget rest (some (b ++ "\n" ++ l)) S
        (fun y hy => hrest y (by simp [hy]))
        (fun b' hb' => by cases hb'; exact Or.inl hc) x ?_
      simpa [MarkdownGenerator.gatherBodies, hc] using hx
    · have hx' : x = b ∨ x ∈ MarkdownGenerator.gatherBodies tk budget (some l) rest := by
        simpa [MarkdownGenerator.gatherBodies, hc] using hx
      rcases hx' with rfl | hx'
      · exact hbuf x rfl
      · exact gatherBodies_mem tk budget rest (some l) S
          (fun y hy => hrest y (by simp [hy]))
          (fun b' hb' => by cases hb'; exact Or.inr (hrest l (by simp)))
          x hx'

/-- Claim C8 counterexample: the chunk-budget claim is false when the
framing alone reaches `maxTokens` — with the length tokenizer,
`maxTokens = 3`, path `a` and an empty body, `splitFileByTokens` emits the
framing-only overflow chunk of the Chunker's step 2, whose 15 content
tokens exceed the budget while no line of the body exceeds the content
budget (the body's only line is empty). -/
theorem c8_counterexample :
    ¬ (∀ (maxTokens : Nat) (path body : String),
        ∀ c ∈ MarkdownGenerator.splitFileByTokens String.length maxTokens path body,
          String.length c.content ≤ maxTokens ∨
          (∃ l ∈ MarkdownGenerator.linesOf body,
            c.content
              = MarkdownGenerator.chunkHeader path ++ (l ++ MarkdownGenerator.chunkFooter) ∧
            maxTokens - (String.length (MarkdownGenerator.chunkHeader path)
                + String.length MarkdownGenerator.chunkFooter)
              < String.length l)) := by
  intro h
  have h0 := h 3 "a" ""
  rw [show MarkdownGenerator.splitFileByTokens String.length 3 "a" ""
      = [{ fileName := "a",
           content := MarkdownGenerator.chunkHeader "a" ++ MarkdownGenerator.chunkFooter,
           tokens := 15, chunkIndex := 0, chunkCount := 1 }] from rfl] at h0
  have hp := h0 _ (List.mem_singleton.mpr rfl)
  exact absurd hp (by decide)

/-- Claim C8 (amended): under a concatenation-subadditive tokenizer, when
the framing fits strictly within `maxTokens` every chunk emitted by
`splitByTokens` for a file either tokenizes to at most `maxTokens` or its
body is a single line of the file whose own token count exceeds the content
budget; without that proviso the framing-only overflow chunk of the
counterexample escapes the bound. -/
theorem c8_chunk_budget (tk : String → Nat) (maxTokens : Nat) (path body : String)
    (hsub : ∀ a b : String, tk (a ++ b) ≤ tk a + tk b)
    (hfit : tk (MarkdownGenerator.chunkHeader path) + tk MarkdownGenerator.chunkFooter
      < maxTokens) :
    ∀ c ∈ MarkdownGenerator.splitFileByTokens tk maxTokens path body,
      tk c.content ≤ maxTokens ∨
      (∃ l ∈ MarkdownGenerator.linesOf body,
        c.content
          = MarkdownGenerator.chunkHeader path ++ (l ++ MarkdownGenerator.chunkFooter) ∧
        maxTokens - (tk (MarkdownGenerator.chunkHeader path) + tk MarkdownGenerator.chunkFooter)
          < tk l) := by
  intro c hc
  simp only [MarkdownGenerator.splitFileByTokens] at hc
  rw [if_neg (by omega)] at hc
  rw [List.enum, List.mem_map] at hc
  obtain ⟨p, hp, hcv⟩ := hc
  have hbdy := mem_enumFrom_snd _ _ _ hp
  have hprop := gatherBodies_mem tk
      (maxTokens - (tk (MarkdownGenerator.chunkHeader path) + tk MarkdownGenerator.chunkFooter))
      (MarkdownGenerator.linesOf body) none (MarkdownGenerator.linesOf body)
      (fun l hl => hl) (fun b hb => by cases hb) p.2 hbdy
  have hcontent : c.content
      = MarkdownGenerator.chunkHeader path ++ (p.2 ++ MarkdownGenerator.chunkFooter) := by
    rw [← hcv]
  have htk : tk p.2 ≤ maxTokens
        - (tk (MarkdownGenerator.chunkHeader path) + tk MarkdownGenerator.chunkFooter)
      → tk c.content ≤ maxTokens := by
    intro hle
    rw [hcontent]
    have h1 := hsub (MarkdownGenerator.chunkHeader path) (p.2 ++ MarkdownGenerator.chunkFooter)
    have h2 := hsub p.2 MarkdownGenerator.chunkFooter
    omega
  rcases hprop with hle | hmem
  · exact Or.inl (htk hle)
  · by_cases hle2 : tk p.2 ≤ maxTokens
        - (tk (MarkdownGenerator.chunkHeader path) + tk MarkdownGenerator.chunkFooter)
    · exact Or.inl (htk hle2)
    · exact Or.inr ⟨p.2, hmem, hcontent, by omega⟩

/-- Claim C8 witness: the amended chunk-budget theorem applied to the
length-tokenizer, `maxTokens = 20` and the two-line body `xy\nz`. -/
theorem c8_chunk_budget_witness :
    (∀ a b : String, String.length (a ++ b) ≤ String.length a + String.length b) ∧
    String.length (MarkdownGenerator.chunkHeader "a")
        + String.length MarkdownGenerator.chunkFooter < 20 ∧
    (∀ c ∈ MarkdownGenerator.splitFileByTokens String.length 20 "a" "xy\nz",
      String.length c.content ≤ 20 ∨
      (∃ l ∈ MarkdownGenerator.linesOf "xy\nz",
        c.content
          = MarkdownGenerator.chunkHeader "a" ++ (l ++ MarkdownGenerator.chunkFooter) ∧
        20 - (String.length (MarkdownGenerator.chunkHeader "a")
            + String.length MarkdownGenerator.chunkFooter) < String.length l)) :=
  ⟨fun a b => le_of_eq (String.length_append a b), by decide,
   c8_chunk_budget String.length 20 "a" "xy\nz"
     (fun a b => le_of_eq (String.length_append a b)) (by decide)⟩

/-- Claim C9: when the version-control collaborator fails, the Enumerator
returns the empty sequence without raising, and the document generated from
the resulting file list is the empty Document (the bare heading). -/
theorem c9_enumerator_soft_failure (e : String) (accept : String → Bool)
    (readBody : String → String) :
    MarkdownGenerator.getTrackedFiles (Except.error e) accept = [] ∧
    MarkdownGenerator.generateMarkdown
        ((MarkdownGenerator.getTrackedFiles (Except.error e) accept).map
          (fun p => (p, readBody p)))
      = "# Project Files\n\n" := by
  constructor
  · rfl
  · show MarkdownGenerator.generateMarkdown [] = "# Project Files\n\n"
    unfold MarkdownGenerator.generateMarkdown
    decide

theorem takeWhile_all (p : Char → Bool) : ∀ (l : List Char), (∀ c ∈ l, p c = true) →
    l.takeWhile p = l
  | [], _ => rfl
  | c :: l, h => by
    simp [List.takeWhile, h c (by simp), takeWhile_all p l (fun x hx => h x (by simp [hx]))]

theorem dropWhile_all (p : Char → Bool) : ∀ (l : List Char), (∀ c ∈ l, p c = true) →
    l.dropWhile p = []
  | [], _ => rfl
  | c :: l, h => by
    simp [List.dropWhile, h c (by simp), dropWhile_all p l (fun x hx => h x (by simp [hx]))]

theorem leadsWith_exists : ∀ (t cs : List Char), leadsWith t cs = true →
    ∃ r, cs = t ++ r
  | [], cs, _ => ⟨cs, rfl⟩
  | a :: t, [], h => by simp [leadsWith] at h
  | a :: t, b :: cs, h => by
    simp only [leadsWith, Bool.and_eq_true, decide_eq_true_eq] at h
    obtain ⟨r, hr⟩ := leadsWith_exists t cs h.2
    exact ⟨r, by simp [h.1.symm, hr]⟩

theorem sentinelAt_redacted (r : List Char) :
    sentinelAt (redactedTok ++ r) = true := by
  simp [sentinelAt, leadsWith, redactedTok]

theorem sentinelAt_redactedJwt (r : List Char) :
    sentinelAt (redactedJwtTok ++ r) = true := by
  simp [sentinelAt, leadsWith, redactedJwtTok, List.takeWhile]

theorem sentinelAt_redactedHash (r : List Char) :
    sentinelAt (redactedHashTok ++ r) = true := by
  simp [sentinelAt, leadsWith, redactedHashTok, List.takeWhile]

theorem chopAny_sentinelAt : ∀ (toks : List (List Char)) (cs rest : List Char),
    (∀ t ∈ toks, ∀ r, sentinelAt (t ++ r) = true) →
    chopAny toks cs = some rest → sentinelAt cs = true
  | [], cs, rest, _, h => by simp [chopAny] at h
  | t :: ts, cs, rest, hall, h => by
    by_cases ht : leadsWith t cs = true
    · obtain ⟨r, hr⟩ := leadsWith_exists _ _ ht
      subst hr
      exact hall t (by simp) r
    · rw [show chopAny (t :: ts) cs
          = if leadsWith t cs then some (cs.drop t.length) else chopAny ts cs from rfl,
        if_neg (by simp [ht])] at h
      exact chopAny_sentinelAt ts cs rest (fun u hu r => hall u (by simp [hu]) r) h

theorem containsSentinel_append (pre suf : List Char)
    (h : containsSentinel suf = true) : containsSentinel (pre ++ suf) = true := by
  induction pre with
  | nil => simpa using h
  | cons c pre ih =>
    show containsSentinel (c :: (pre ++ suf)) = true
    unfold containsSentinel
    rw [ih]
    simp

theorem exhaustedBy_filter_contains (l : List Char)
    (h : exhaustedBy filterToks l = true) : containsSentinel l = true := by
  unfold exhaustedBy at h
  have hchop : ∃ rest, chopAny filterToks (l.dropWhile isJsWs) = some rest := by
    unfold exhAux at h
    cases hc : chopAny filterToks (l.dropWhile isJsWs) with
    | none => rw [hc] at h; simp at h
    | some rest => exact ⟨rest, rfl⟩
  obtain ⟨rest, hc⟩ := hchop
  have hat : sentinelAt (l.dropWhile isJsWs) = true := by
    refine chopAny_sentinelAt filterToks _ rest ?_ hc
    intro t ht r
    simp only [filterToks, List.mem_cons, List.mem_singleton] at ht
    rcases ht with ht | ht | ht
    · rw [ht]; exact sentinelAt_redacted r
    · rw [ht]; exact sentinelAt_redactedJwt r
    · simp at ht; rw [ht]; exact sentinelAt_redactedHash r
  have hcontains : containsSentinel (l.dropWhile isJsWs) = true := by
    cases hd : l.dropWhile isJsWs with
    | nil => rw [hd] at hat; simp [sentinelAt, leadsWith] at hat
    | cons c r => rw [hd] at hat; simp [containsSentinel, hat]
  have hsplit : l = l.takeWhile isJsWs ++ l.dropWhile isJsWs :=
    (List.takeWhile_append_dropWhile (p := isJsWs) (l := l)).symm
  rw [hsplit]
  exact containsSentinel_append _ _ hcontains

/-- Claim C1 counterexample: the filter does not drop a line exactly when
its non-whitespace content is exhausted by the four sentinel tokens — the
line `a [REDACTED]` carries meaningful content besides the sentinel, is not
exhausted, yet is dropped. -/
theorem c1_counterexample :
    ¬ (∀ l : List Char, (∀ c ∈ l, isLineTerm c = false) →
        (dropRedactedLinesL (l.length + 1) l = [] ↔
          (sentinelExhausted l = true ∨ l = []))) := fun h =>
  absurd ((h ("a [REDACTED]".data) (by decide)).mp (by decide)) (by decide)

/-- Claim C1 amended: on a terminator-free line the post-pass filter of
`cleanAndRedact` empties the line iff the line contains a token of shape
`[REDACTED(_[A-Z]+)?]` anywhere (or is already empty) — regardless of any
other content around it; a line whose non-whitespace content is exhausted
by the tokens `[REDACTED]`, `[REDACTED_JWT]`, `[REDACTED_HASH]` does
contain such a token and is therefore dropped, but `[REDACTED_BASE64]` is
not matched by the filter regex (digits are outside `[A-Z]+`), so redacted
base64 lines survive to the output; moreover the clean pass runs after the
filter and can splice a sentinel-only line into the final output. -/
theorem c1_amended :
    (∀ l : List Char, (∀ c ∈ l, isLineTerm c = false) →
      (dropRedactedLinesL (l.length + 1) l = [] ↔
        (containsSentinel l = true ∨ l = []))) ∧
    (∀ l : List Char, (∀ c ∈ l, isLineTerm c = false) →
      exhaustedBy filterToks l = true →
      dropRedactedLinesL (l.length + 1) l = []) ∧
    containsSentinel redactedB64Tok = false ∧
    TokenCleaner.cleanAndRedact
        "x = 'QWJjRGVmR2hpSmtsTW5vUHFyU3R1VndYeXpBYmNEZWZHaGlKa2xNbm9QcXJTdHVWd1h5eg=='"
      = "x = '[REDACTED_BASE64]'" ∧
    TokenCleaner.cleanAndRedact "[REDACT/*x*/ED]" = "[REDACTED]" := by
  have hmain : ∀ l : List Char, (∀ c ∈ l, isLineTerm c = false) →
      (dropRedactedLinesL (l.length + 1) l = [] ↔
        (containsSentinel l = true ∨ l = [])) := by
    intro l hterm
    have htw : l.takeWhile (fun c => !isLineTerm c) = l :=
      takeWhile_all _ l (fun c hc => by simp [hterm c hc])
    have hdw : l.dropWhile (fun c => !isLineTerm c) = [] :=
      dropWhile_all _ l (fun c hc => by simp [hterm c hc])
    show dropRedactedLinesL (l.length + 1) l = [] ↔ _
    unfold dropRedactedLinesL
    rw [htw, hdw]
    by_cases hcs : containsSentinel l = true
    · simp [hcs]
    · simp [hcs, eq_false_of_ne_true hcs]
  refine ⟨hmain, ?_, by decide, by decide, by decide⟩
  intro l hterm h
  exact (hmain l hterm).mpr (Or.inl (exhaustedBy_filter_contains l h))

theorem c1_amended_witness :
    (dropRedactedLinesL ("a [REDACTED]".data.length + 1) "a [REDACTED]".data = [] ↔
      (containsSentinel "a [REDACTED]".data = true ∨ "a [REDACTED]".data = [])) ∧
    dropRedactedLinesL ("  [REDACTED] [REDACTED_JWT]".data.length + 1)
        "  [REDACTED] [REDACTED_JWT]".data = [] :=
  ⟨c1_amended.1 "a [REDACTED]".data (by decide),
   c1_amended.2.1 "  [REDACTED] [REDACTED_JWT]".data (by decide) (by decide)⟩


/-! ### Claim C10: whitespace behaviour of the cleaning pipeline -/

/-- A whitespace character is none of the structural characters that start
or continue a cleaner or redactor match. -/
theorem ws_facts (c : Char) (h : isJsWs c = true) :
    isQuote c = false ∧ tokenCls c = false ∧ isHexDigit c = false ∧
    b64Cls c = false ∧ c ≠ '/' ∧ c ≠ '"' ∧ c ≠ '\'' ∧ c ≠ '#' := by
  simp only [isJsWs, Bool.or_eq_true, Bool.and_eq_true, decide_eq_true_eq] at h
  rcases h with ((((((((((((((h|h)|h)|h)|h)|h)|h)|h)|hr)|h)|h)|h)|h)|h)|h)
  all_goals try (subst h; decide)
  obtain ⟨h1, h2⟩ := hr
  have hn : 8192 ≤ c.toNat := Char.le_def.mp h1
  have hne : ∀ k : Char, (8192 ≤ k.toNat → False) → c ≠ k :=
    fun k hk he => hk (he ▸ hn)
  have hle : ∀ hi : Char, (' ' ≤ hi → False) → ¬ (c ≤ hi) :=
    fun hi hhi hc => hhi (le_trans h1 hc)
  refine ⟨?_, ?_, ?_, ?_, hne '/' (by decide), hne '"' (by decide),
    hne '\'' (by decide), hne '#' (by decide)⟩
  · simp [isQuote, hne '"' (by decide), hne '\'' (by decide)]
  · simp [tokenCls, isAsciiAlphaNum, hle 'z' (by decide), hle 'Z' (by decide),
      hle '9' (by decide), hne '-' (by decide), hne '.' (by decide),
      hne '_' (by decide), hne '~' (by decide), hne '+' (by decide),
      hne '/' (by decide)]
  · simp [isHexDigit, hle '9' (by decide), hle 'f' (by decide), hle 'F' (by decide)]
  · simp [b64Cls, isAsciiAlphaNum, hle 'z' (by decide), hle 'Z' (by decide),
      hle '9' (by decide), hne '+' (by decide), hne '/' (by decide)]

/-- Whitespace characters are unchanged by `Char.toLower`. -/
theorem ws_toLower (c : Char) (h : isJsWs c = true) : c.toLower = c := by
  simp only [isJsWs, Bool.or_eq_true, Bool.and_eq_true, decide_eq_true_eq] at h
  rcases h with ((((((((((((((h|h)|h)|h)|h)|h)|h)|h)|hr)|h)|h)|h)|h)|h)|h)
  all_goals try (subst h; decide)
  obtain ⟨h1, _⟩ := hr
  have hn : 8192 ≤ c.toNat := Char.le_def.mp h1
  have hcond : ¬ (c.toNat ≥ 65 ∧ c.toNat ≤ 90) := fun hc => by omega
  simp [Char.toLower, hcond]

/-- A case-sensitive literal whose first character is not whitespace cannot
match at the head of an all-whitespace list. -/
theorem leadsWith_ws_false (a : Char) (t cs : List Char)
    (ha : isJsWs a = false) (hws : ∀ c ∈ cs, isJsWs c = true) :
    leadsWith (a :: t) cs = false := by
  cases cs with
  | nil => rfl
  | cons b bs =>
    have hb := hws b (by simp)
    have hab : ¬ (a = b) := fun he => by
      rw [he] at ha
      rw [ha] at hb
      exact absurd hb (by simp)
    simp [leadsWith, hab]

/-- A case-insensitive literal whose lower-cased first character is not
whitespace cannot match at the head of an all-whitespace list. -/
theorem leadsWithCI_ws_false (a : Char) (t cs : List Char)
    (ha : isJsWs a.toLower = false) (hws : ∀ c ∈ cs, isJsWs c = true) :
    leadsWithCI (a :: t) cs = false := by
  cases cs with
  | nil => rfl
  | cons b bs =>
    have hb := hws b (by simp)
    have hab : ¬ (a.toLower = b.toLower) := fun he => by
      rw [ws_toLower b hb] at he
      rw [he] at ha
      rw [ha] at hb
      exact absurd hb (by simp)
    simp [leadsWithCI, hab]

/-- A key alternation whose alternatives all start with solid characters
fails on all-whitespace input, whatever its continuation. -/
theorem tryKeyAlts_ws_none (ci : Bool) (cs : List Char)
    (k : Nat → Option (List Char × List Char × List Char)) :
    ∀ keys : List (List Char), keyHeadsSolid keys = true →
      (∀ c ∈ cs, isJsWs c = true) → tryKeyAlts ci cs k keys = none
  | [], _, _ => rfl
  | a :: rest, hk, hws => by
    simp only [keyHeadsSolid, List.all_cons, Bool.and_eq_true] at hk
    obtain ⟨hhead, htail⟩ := hk
    have htail' : keyHeadsSolid rest = true := by
      simp [keyHeadsSolid, htail]
    cases a with
    | nil => simp at hhead
    | cons k0 tl =>
      simp only [Bool.and_eq_true, Bool.not_eq_true'] at hhead
      have hlw : (if ci then leadsWithCI (k0 :: tl) cs else leadsWith (k0 :: tl) cs) = false := by
        cases ci with
        | false => exact leadsWith_ws_false k0 tl cs hhead.1 hws
        | true => exact leadsWithCI_ws_false k0 tl cs hhead.2 hws
      simp only [tryKeyAlts, hlw, Bool.false_eq_true, if_false]
      exact tryKeyAlts_ws_none ci cs k rest htail' hws

/-- A scan pass with a whitespace-respecting step preserves
all-whitespace inputs. -/
theorem rscan_ws (step : List Char → List Char → Option (List Char × List Char × List Char))
    (hstep : StepWs step) :
    ∀ (f : Nat) (prev cs : List Char), (∀ c ∈ cs, isJsWs c = true) →
      ∀ c ∈ rscan step f prev cs, isJsWs c = true
  | 0, prev, cs, hws => by simpa [rscan] using hws
  | f + 1, prev, [], _ => by simp [rscan]
  | f + 1, prev, b :: cs, hws => by
    rcases hstep prev (b :: cs) hws with hn | ⟨con, rep, rest, hs, hrep, hrest⟩
    · rw [rscan_cons_none step f prev b cs hn]
      intro x hx
      rcases List.mem_cons.mp hx with hx | hx
      · exact hx ▸ hws b (by simp)
      · exact rscan_ws step hstep f (b :: prev) cs (fun y hy => hws y (by simp [hy])) x hx
    · rw [rscan_cons_some step f prev con rep rest b cs hs]
      intro x hx
      rcases List.mem_append.mp hx with hx | hx
      · exact hrep x hx
      · exact rscan_ws step hstep f (con.reverse ++ prev) rest hrest x hx

/-- `runScan` form of `rscan_ws`. -/
theorem runScan_ws (step : List Char → List Char → Option (List Char × List Char × List Char))
    (hstep : StepWs step) (cs : List Char) (hws : ∀ c ∈ cs, isJsWs c = true) :
    ∀ c ∈ runScan step cs, isJsWs c = true :=
  rscan_ws step hstep (cs.length + 1) [] cs hws

/-- The line-comment pattern never fires on all-whitespace input. -/
theorem stepLineComment_ws : StepWs stepLineComment := by
  intro prev cs hws
  left
  cases cs with
  | nil => rfl
  | cons c cs' =>
    obtain ⟨-, -, -, -, hsl, -, -, -⟩ := ws_facts c (hws c (by simp))
    unfold stepLineComment
    split
    · rename_i rest heq
      obtain ⟨h1, -⟩ := List.cons.inj heq
      exact absurd h1 hsl
    · rfl

/-- The block-comment pattern never fires on all-whitespace input. -/
theorem stepBlockComment_ws : StepWs stepBlockComment := by
  intro prev cs hws
  left
  cases cs with
  | nil => rfl
  | cons c cs' =>
    obtain ⟨-, -, -, -, hsl, -, -, -⟩ := ws_facts c (hws c (by simp))
    unfold stepBlockComment
    split
    · rename_i rest heq
      obtain ⟨h1, -⟩ := List.cons.inj heq
      exact absurd h1 hsl
    · rfl

/-- The console pattern never fires on all-whitespace input. -/
theorem stepConsole_ws : StepWs stepConsole := by
  intro prev cs hws
  left
  unfold stepConsole
  rw [leadsWith_ws_false 'c' ('o' :: 'n' :: 's' :: 'o' :: 'l' :: 'e' :: '.' :: [])
    cs (by decide) hws]
  simp

/-- The empty-line pattern only removes whitespace. -/
theorem stepEmptyLines_ws : StepWs stepEmptyLines := by
  intro prev cs hws
  cases hstep : stepEmptyLines prev cs with
  | none => exact Or.inl rfl
  | some t =>
    obtain ⟨con, rep, rest⟩ := t
    have hmem : (∀ x ∈ rep, isJsWs x = true) ∧ (∀ x ∈ rest, isJsWs x = true) := by
      have hinv := hstep
      simp only [stepEmptyLines] at hinv
      split at hinv
      · exact absurd hinv (by simp)
      · split at hinv
        · exact absurd hinv (by simp)
        · simp only [Option.some.injEq, Prod.mk.injEq] at hinv
          obtain ⟨-, hrep, hrest⟩ := hinv
          constructor
          · intro x hx
            rw [← hrep] at hx
            simp at hx
          · intro x hx
            rw [← hrest] at hx
            rcases List.mem_append.mp hx with hx | hx
            · exact hws x ((List.takeWhile_sublist isJsWs).subset
                ((List.drop_sublist _ _).subset hx))
            · exact hws x ((List.dropWhile_sublist isJsWs).subset hx)
    exact Or.inr ⟨con, rep, rest, rfl, hmem.1, hmem.2⟩

/-- The trailing-space pattern only removes whitespace. -/
theorem stepTrailingSpaces_ws : StepWs stepTrailingSpaces := by
  intro prev cs hws
  cases hstep : stepTrailingSpaces prev cs with
  | none => exact Or.inl rfl
  | some t =>
    obtain ⟨con, rep, rest⟩ := t
    have hmem : (∀ x ∈ rep, isJsWs x = true) ∧ (∀ x ∈ rest, isJsWs x = true) := by
      have hinv := hstep
      simp only [stepTrailingSpaces] at hinv
      split at hinv
      · split at hinv
        · simp only [Option.some.injEq, Prod.mk.injEq] at hinv
          obtain ⟨-, hrep, hrest⟩ := hinv
          constructor
          · intro x hx
            rw [← hrep] at hx
            simp at hx
          · intro x hx
            rw [← hrest] at hx
            simp at hx
        · split at hinv
          · simp only [Option.some.injEq, Prod.mk.injEq] at hinv
            obtain ⟨-, hrep, hrest⟩ := hinv
            constructor
            · intro x hx
              rw [← hrep] at hx
              simp at hx
            · intro x hx
              rw [← hrest] at hx
              exact hws x ((List.dropWhile_sublist _).subset hx)
          · exact absurd hinv (by simp)
      · exact absurd hinv (by simp)
    exact Or.inr ⟨con, rep, rest, rfl, hmem.1, hmem.2⟩

/-- The import pattern never fires on all-whitespace input. -/
theorem stepImport_ws : StepWs stepImport := by
  intro prev cs hws
  left
  have hsub : ∀ c ∈ cs.dropWhile isJsWs, isJsWs c = true :=
    fun c hc => hws c ((List.dropWhile_sublist isJsWs).subset hc)
  cases hls : atLineStart prev with
  | false => simp [stepImport, hls]
  | true =>
    simp [stepImport, hls,
      leadsWith_ws_false 'i' ('m' :: 'p' :: 'o' :: 'r' :: 't' :: [])
        (cs.dropWhile isJsWs) (by decide) hsub]

/-- The newline-collapse pattern only removes whitespace (its replacement
is a newline). -/
theorem stepCollapseNl_ws : StepWs stepCollapseNl := by
  intro prev cs hws
  cases hstep : stepCollapseNl prev cs with
  | none => exact Or.inl rfl
  | some t =>
    obtain ⟨con, rep, rest⟩ := t
    have hmem : (∀ x ∈ rep, isJsWs x = true) ∧ (∀ x ∈ rest, isJsWs x = true) := by
      have hinv := hstep
      simp only [stepCollapseNl] at hinv
      split at hinv
      · exact absurd hinv (by simp)
      · split at hinv
        · exact absurd hinv (by simp)
        · simp only [Option.some.injEq, Prod.mk.injEq] at hinv
          obtain ⟨-, hrep, hrest⟩ := hinv
          constructor
          · intro x hx
            rw [← hrep] at hx
            simp at hx
            subst hx
            decide
          · intro x hx
            rw [← hrest] at hx
            rcases List.mem_append.mp hx with hx | hx
            · exact hws x ((List.takeWhile_sublist isJsWs).subset
                ((List.drop_sublist _ _).subset hx))
            · exact hws x ((List.dropWhile_sublist isJsWs).subset hx)
    exact Or.inr ⟨con, rep, rest, rfl, hmem.1, hmem.2⟩

/-- The JSON secret pattern never fires on all-whitespace input. -/
theorem stepJson_ws : StepWs stepJson := by
  intro prev cs hws
  left
  have hr : cs.dropWhile (fun c => !isQuote c) = [] :=
    dropWhile_all _ cs (fun c hc => by simp [(ws_facts c (hws c hc)).1])
  simp [stepJson, hr]

/-- The JWT pattern never fires on all-whitespace input. -/
theorem stepJwt_ws : StepWs stepJwt := by
  intro prev cs hws
  left
  cases prev with
  | nil => rfl
  | cons q pr =>
    unfold stepJwt
    rw [leadsWith_ws_false 'e' ('y' :: 'J' :: []) cs (by decide) hws]
    simp

/-- The quoted-assignment pattern never fires on all-whitespace input. -/
theorem stepAssign_ws : StepWs stepAssign := by
  intro prev cs hws
  left
  exact tryKeyAlts_ws_none true cs _ assignKeys (by decide) hws

/-- The env-style pattern never fires on all-whitespace input. -/
theorem stepEnv_ws : StepWs stepEnv := by
  intro prev cs hws
  left
  cases hls : atLineStart prev with
  | false => simp [stepEnv, hls]
  | true =>
    have hr0 : cs.dropWhile isJsWs = [] := dropWhile_all isJsWs cs hws
    simp only [stepEnv, hls, hr0, Bool.not_true, Bool.false_eq_true, if_false]
    simp only [leadsWith, Bool.false_eq_true, if_false]
    exact tryKeyAlts_ws_none false [] _ envKeys (by decide) (by simp)

/-- The bearer pattern never fires on all-whitespace input. -/
theorem stepBearer_ws : StepWs stepBearer := by
  intro prev cs hws
  left
  unfold stepBearer
  cases hlb : lbBearer prev with
  | false => simp [hlb]
  | true =>
    simp only [hlb, if_true]
    cases cs with
    | nil => simp
    | cons c cs' =>
      have ht : tokenCls c = false := (ws_facts c (hws c (by simp))).2.1
      simp [List.takeWhile_cons, ht]

/-- The Authorization-header pattern never fires on all-whitespace input. -/
theorem stepAuthBearer_ws : StepWs stepAuthBearer := by
  intro prev cs hws
  left
  unfold stepAuthBearer
  cases hlb : lbAuthBearer prev with
  | false => simp [hlb]
  | true =>
    simp only [hlb, if_true]
    cases cs with
    | nil => simp
    | cons c cs' =>
      have ht : tokenCls c = false := (ws_facts c (hws c (by simp))).2.1
      simp [List.takeWhile_cons, ht]

/-- `takeCount` with a positive count fails on the empty list. -/
theorem takeCount_nil (k : Nat) (p : Char → Bool) (hk : 0 < k) :
    takeCount k p [] = none := by
  match k, hk with
  | k' + 1, _ => rfl

/-- The hex-hash pattern never fires on all-whitespace input. -/
theorem stepHex_ws : StepWs stepHex := by
  intro prev cs hws
  left
  unfold stepHex
  cases hpb : (match prev with | [] => true | c :: _ => !isWordChar c) with
  | false => simp
  | true =>
    simp only [if_true]
    cases cs with
    | nil => simp [takeCount_nil 40 isHexDigit (by decide)]
    | cons c cs' =>
      have hx : isHexDigit c = false := (ws_facts c (hws c (by simp))).2.2.1
      simp [takeCount_head_false 40 isHexDigit c cs' (by decide) hx]

/-- The base64 pattern never fires on all-whitespace input. -/
theorem stepB64_ws : StepWs stepB64 := by
  intro prev cs hws
  left
  cases cs with
  | nil => rfl
  | cons q r =>
    have hq : isQuote q = false := (ws_facts q (hws q (by simp))).1
    simp [stepB64, hq]

/-- The shared env/yaml value parser fails on all-whitespace input. -/
theorem parseEnvValue_ws_none (cs : List Char) (hws : ∀ c ∈ cs, isJsWs c = true) :
    parseEnvValue cs = none := by
  cases cs with
  | nil => rfl
  | cons c r =>
    obtain ⟨-, -, -, -, -, hq2, hq1, hsh⟩ := ws_facts c (hws c (by simp))
    have hwc : isJsWs c = true := hws c (by simp)
    simp [parseEnvValue, hq2, hq1, List.takeWhile_cons, hwc]

/-- The YAML pattern never fires on all-whitespace input. -/
theorem stepYaml_ws : StepWs stepYaml := by
  intro prev cs hws
  left
  simp [stepYaml, parseEnvValue_ws_none cs hws]

/-- `clean` preserves all-whitespace inputs. -/
theorem cleanL_ws (cs : List Char) (hws : ∀ c ∈ cs, isJsWs c = true) :
    ∀ c ∈ TokenCleaner.cleanL cs, isJsWs c = true := by
  unfold TokenCleaner.cleanL
  exact runScan_ws _ stepCollapseNl_ws _
    (runScan_ws _ stepImport_ws _
      (runScan_ws _ stepTrailingSpaces_ws _
        (runScan_ws _ stepEmptyLines_ws _
          (runScan_ws _ stepConsole_ws _
            (runScan_ws _ stepBlockComment_ws _
              (runScan_ws _ stepLineComment_ws _ hws))))))

/-- `redactSecrets` preserves all-whitespace inputs. -/
theorem redactSecretsL_ws (cs : List Char) (hws : ∀ c ∈ cs, isJsWs c = true) :
    ∀ c ∈ TokenCleaner.redactSecretsL cs, isJsWs c = true := by
  unfold TokenCleaner.redactSecretsL
  exact runScan_ws _ stepYaml_ws _
    (runScan_ws _ stepB64_ws _
      (runScan_ws _ stepHex_ws _
        (runScan_ws _ stepAuthBearer_ws _
          (runScan_ws _ stepBearer_ws _
            (runScan_ws _ stepEnv_ws _
              (runScan_ws _ stepAssign_ws _
                (runScan_ws _ stepJwt_ws _
                  (runScan_ws _ stepJson_ws _ hws))))))))

/-- The line filter preserves all-whitespace inputs. -/
theorem dropRedactedLines_ws :
    ∀ (f : Nat) (cs : List Char), (∀ c ∈ cs, isJsWs c = true) →
      ∀ c ∈ dropRedactedLinesL f cs, isJsWs c = true
  | 0, cs, hws => by simpa [dropRedactedLinesL] using hws
  | f + 1, cs, hws => by
    intro x hx
    simp only [dropRedactedLinesL] at hx
    have hkeep : ∀ y ∈ (if containsSentinel (cs.takeWhile (fun c => !isLineTerm c))
        then ([] : List Char) else cs.takeWhile (fun c => !isLineTerm c)),
        isJsWs y = true := by
      intro y hy
      split at hy
      · simp at hy
      · exact hws y ((List.takeWhile_sublist _).subset hy)
    cases hrest : cs.dropWhile (fun c => !isLineTerm c) with
    | nil =>
      simp only [hrest] at hx
      exact hkeep x hx
    | cons t rs =>
      simp only [hrest] at hx
      rcases List.mem_append.mp hx with hx | hx
      · exact hkeep x hx
      · rcases List.mem_cons.mp hx with hx | hx
        · subst hx
          exact hws x ((List.dropWhile_sublist _).subset (by rw [hrest]; simp))
        · have hrs : ∀ y ∈ rs, isJsWs y = true := fun y hy =>
            hws y ((List.dropWhile_sublist _).subset (by rw [hrest]; simp [hy]))
          exact dropRedactedLines_ws f rs hrs x hx

/-- `trim` of an all-whitespace list is empty. -/
theorem jsTrimL_ws_nil (cs : List Char) (hws : ∀ c ∈ cs, isJsWs c = true) :
    jsTrimL cs = [] := by
  unfold jsTrimL
  rw [dropWhile_all isJsWs cs hws]
  rfl

/-- The head of a `dropWhile` result fails the predicate. -/
theorem dropWhile_head_not (p : Char → Bool) :
    ∀ (l : List Char) (c : Char), (l.dropWhile p).head? = some c → p c = false
  | [], c, h => by simp at h
  | a :: l, c, h => by
    by_cases hpa : p a = true
    · rw [List.dropWhile_cons, if_pos hpa] at h
      exact dropWhile_head_not p l c h
    · rw [List.dropWhile_cons, if_neg hpa] at h
      simp only [List.head?_cons, Option.some.injEq] at h
      rw [← h]
      exact Bool.not_eq_true _ ▸ hpa

/-- `dropWhile` only removes a prefix: a non-empty result keeps the last
element. -/
theorem getLast_dropWhile (p : Char → Bool) :
    ∀ (l : List Char), l.dropWhile p ≠ [] → (l.dropWhile p).getLast? = l.getLast?
  | [], h => absurd rfl h
  | a :: l, h => by
    by_cases hpa : p a = true
    · rw [List.dropWhile_cons, if_pos hpa] at h ⊢
      have hl : l ≠ [] := by
        intro he
        subst he
        simp [List.dropWhile] at h
      rw [getLast_dropWhile p l h]
      cases l with
      | nil => exact absurd rfl hl
      | cons b l' => exact (List.getLast?_cons_cons).symm
    · rw [List.dropWhile_cons, if_neg hpa]

/-- The first character of a trimmed list is not whitespace. -/
theorem jsTrimL_head (cs : List Char) (c : Char)
    (h : (jsTrimL cs).head? = some c) : isJsWs c = false := by
  unfold jsTrimL at h
  rw [List.head?_reverse] at h
  have hne : (cs.dropWhile isJsWs).reverse.dropWhile isJsWs ≠ [] := by
    intro he
    rw [he] at h
    simp at h
  rw [getLast_dropWhile isJsWs _ hne] at h
  rw [List.getLast?_reverse] at h
  exact dropWhile_head_not isJsWs cs c h

/-- The last character of a trimmed list is not whitespace. -/
theorem jsTrimL_last (cs : List Char) (c : Char)
    (h : (jsTrimL cs).getLast? = some c) : isJsWs c = false := by
  unfold jsTrimL at h
  rw [List.getLast?_reverse] at h
  exact dropWhile_head_not isJsWs _ c h

/-- Claim C10: for every input the result of `cleanAndRedact` carries no
leading and no trailing whitespace (it is trimmed), and an empty or
all-whitespace input produces the empty string. -/
theorem c10_output_trimmed (s : String) :
    (∀ c : Char,
      ((TokenCleaner.cleanAndRedact s).data.head? = some c → isJsWs c = false) ∧
      ((TokenCleaner.cleanAndRedact s).data.getLast? = some c → isJsWs c = false)) ∧
    ((∀ c ∈ s.data, isJsWs c = true) → TokenCleaner.cleanAndRedact s = "") := by
  have hdata : (TokenCleaner.cleanAndRedact s).data
      = jsTrimL (TokenCleaner.cleanL (dropRedactedLinesL
          ((TokenCleaner.redactSecretsL s.data).length + 1)
          (TokenCleaner.redactSecretsL s.data))) := by
    simp only [TokenCleaner.cleanAndRedact, TokenCleaner.cleanAndRedactL]
  constructor
  · intro c
    rw [hdata]
    exact ⟨jsTrimL_head _ c, jsTrimL_last _ c⟩
  · intro hws
    have h1 := redactSecretsL_ws s.data hws
    have h2 := dropRedactedLines_ws ((TokenCleaner.redactSecretsL s.data).length + 1)
      (TokenCleaner.redactSecretsL s.data) h1
    have h3 := cleanL_ws _ h2
    show (⟨TokenCleaner.cleanAndRedactL s.data⟩ : String) = ""
    unfold TokenCleaner.cleanAndRedactL
    rw [jsTrimL_ws_nil _ h3]

/-- Claim C10 witness: the trimming facts applied to `"  a  "` (whose
output is `a`) and the whitespace-only input `" \n "`. -/
theorem c10_output_trimmed_witness :
    isJsWs 'a' = false ∧ TokenCleaner.cleanAndRedact " \n " = "" :=
  ⟨((c10_output_trimmed "  a  ").1 'a').1 (by decide),
   (c10_output_trimmed " \n ").2 (by decide)⟩


end Toak
